import Mathlib

/-!
Shallow embedding of the rustc specialization-graph insertion algorithm
(`src/librustc/traits/specialize/specialization_graph.rs`).

Impl and trait `DefId`s are modelled as `Nat`.  `SimplifiedType` (the shape
key produced by `fast_reject::simplify_type`) is modelled as `Nat`.  The
`FxHashMap`s (`Children.nonblanket_impls`, `Graph.parent`, `Graph.children`)
are modelled as association lists accessed exclusively through
`lookupA` / `insertA` / `updateA`, which mirror the `get` / `insert` /
`entry(..).or_default()` API used by the source.  The external type-system
queries (`impl_trait_ref`, `specializes`, `impls_are_allowed_to_overlap`,
`overlapping_impls`) are an explicit `Oracle` record of pure functions, as
the spec directs (§6, §9).
-/

namespace SpecGraph

/-- Association-list lookup: first binding of the key wins (hash-map `get`). -/
def lookupA {α : Type} : List (Nat × α) → Nat → Option α
  | [], _ => none
  | (k, v) :: rest, key => if k = key then some v else lookupA rest key

/-- Association-list insert: replace the binding of the key, or append a new
binding at the end (hash-map `insert`). -/
def insertA {α : Type} : List (Nat × α) → Nat → α → List (Nat × α)
  | [], key, v => [(key, v)]
  | (k, w) :: rest, key, v =>
    if k = key then (key, v) :: rest else (k, w) :: insertA rest key v

/-- `entry(key).or_default()` followed by an in-place modification `f`:
modify the existing value, or materialize `f dflt` under the key. -/
def updateA {α : Type} (l : List (Nat × α)) (key : Nat) (dflt : α) (f : α → α) :
    List (Nat × α) :=
  match lookupA l key with
  | some v => insertA l key (f v)
  | none => l ++ [(key, f dflt)]

/-- Remove the first occurrence of an element from a list
(`vec.remove(vec.iter().position(..))`). -/
def removeFirst : List Nat → Nat → List Nat
  | [], _ => []
  | x :: rest, y => if x = y then rest else x :: removeFirst rest y

/-- `IntercrateMode` of the overlap check. -/
inductive IntercrateMode where
  | Issue43355
  | Fixed
deriving DecidableEq

/-- `SkipLeakCheck`; `SkipLeakCheck::default()` is `No`. -/
inductive SkipLeakCheck where
  | Yes
  | No
deriving DecidableEq

/-- `ty::ImplOverlapKind` as returned by `impls_are_allowed_to_overlap`. -/
inductive ImplOverlapKind where
  | Permitted
  | Issue33140
deriving DecidableEq

/-- The data the algorithm reads off `tcx.impl_trait_ref(impl).unwrap()`:
the trait's `DefId`, the shape key `fast_reject::simplify_type(self_ty)`,
the `references_error` flag, and the printing data used for diagnostics. -/
structure TraitRefInfo where
  def_id : Nat
  self_ty_simplified : Option Nat
  references_error : Bool
  trait_desc : String
  self_ty_has_concrete_skeleton : Bool
  self_ty_desc : String
deriving DecidableEq

/-- `traits::coherence::OverlapResult`: what the overlap oracle hands to the
`on_overlap` closure. -/
structure OverlapResult where
  trait_ref : TraitRefInfo
  intercrate_ambiguity_causes : List String
  involves_placeholder : Bool
deriving DecidableEq

/-- `OverlapError` (from `super::OverlapError`). -/
structure OverlapError where
  with_impl : Nat
  trait_desc : String
  self_desc : Option String
  intercrate_ambiguity_causes : List String
  involves_placeholder : Bool
deriving DecidableEq

/-- `FutureCompatOverlapErrorKind`. -/
inductive FutureCompatOverlapErrorKind where
  | Issue43355
  | Issue33140
  | LeakCheck
deriving DecidableEq

/-- `FutureCompatOverlapError`. -/
structure FutureCompatOverlapError where
  error : OverlapError
  kind : FutureCompatOverlapErrorKind
deriving DecidableEq

/-- The black-box type-system queries (`tcx.*` and `traits::overlapping_impls`),
pure and impl-id-keyed per spec §5/§6.  `overlapping mode skip a b` returns
`some r` when the overlap check of `(a, b)` under the given mode reports an
overlap `r`, and `none` when it reports no overlap. -/
structure Oracle where
  impl_trait_ref : Nat → TraitRefInfo
  specializes : Nat → Nat → Bool
  impls_are_allowed_to_overlap : Nat → Nat → Option ImplOverlapKind
  overlapping : IntercrateMode → SkipLeakCheck → Nat → Nat → Option OverlapResult

/-- Shape key of an impl: `fast_reject::simplify_type(tcx, trait_ref.self_ty(), false)`. -/
def skey (o : Oracle) (i : Nat) : Option Nat :=
  (o.impl_trait_ref i).self_ty_simplified

/-- The `overlap_error` closure of `Children::insert` (lines 90-108). -/
def overlap_error (possible_sibling : Nat) (overlap : OverlapResult) : OverlapError :=
  { with_impl := possible_sibling
    trait_desc := overlap.trait_ref.trait_desc
    self_desc :=
      if overlap.trait_ref.self_ty_has_concrete_skeleton then
        some overlap.trait_ref.self_ty_desc
      else none
    intercrate_ambiguity_causes := overlap.intercrate_ambiguity_causes
    involves_placeholder := overlap.involves_placeholder }

/-- `Children`: the impls attached directly beneath one graph node. -/
structure Children where
  nonblanket_impls : List (Nat × List Nat)
  blanket_impls : List Nat
deriving DecidableEq

/-- `Children::default()`. -/
def Children.empty : Children := ⟨[], []⟩

/-- `Children::insert_blindly` (lines 37-46). -/
def Children.insert_blindly (o : Oracle) (c : Children) (impl_def_id : Nat) : Children :=
  match skey o impl_def_id with
  | some st =>
      { c with nonblanket_impls := updateA c.nonblanket_impls st [] (· ++ [impl_def_id]) }
  | none => { c with blanket_impls := c.blanket_impls ++ [impl_def_id] }

/-- `Children::remove_existing` (lines 51-64).  The source `unwrap`s the
bucket and the position (the impl must be present); the model is total, with
the same effect on every present impl. -/
def Children.remove_existing (o : Oracle) (c : Children) (impl_def_id : Nat) : Children :=
  match skey o impl_def_id with
  | some st =>
      { c with nonblanket_impls := updateA c.nonblanket_impls st [] (removeFirst · impl_def_id) }
  | none => { c with blanket_impls := removeFirst c.blanket_impls impl_def_id }

/-- `Children::iter` (lines 208-211): blanket impls first, then every
nonblanket bucket. -/
def Children.iter (c : Children) : List Nat :=
  c.blanket_impls ++ c.nonblanket_impls.flatMap (·.2)

/-- `Children::filtered` (lines 213-216): blanket impls plus the bucket of
the given shape key; `entry(st).or_default()` creates the bucket, so the
(possibly mutated) `Children` is returned alongside the enumeration. -/
def Children.filtered (c : Children) (st : Nat) : List Nat × Children :=
  let nb := updateA c.nonblanket_impls st [] id
  (c.blanket_impls ++ (lookupA nb st).getD [], { c with nonblanket_impls := nb })

/-- The candidate-sibling enumeration of `Children::insert` as a list
(`PotentialSiblings`, materialized). -/
def Children.candidates (c : Children) (simplified_self : Option Nat) : List Nat :=
  match simplified_self with
  | some st => c.blanket_impls ++ (lookupA c.nonblanket_impls st).getD []
  | none => c.iter

/-- `Inserted`: the result of attempting to insert an impl into a group of
children. -/
inductive Inserted where
  | BecameNewSibling (lint : Option FutureCompatOverlapError)
  | ReplaceChildren (children : List Nat)
  | ShouldRecurseOn (impl_def_id : Nat)
deriving DecidableEq

/-- One candidate-sibling comparison: the primary
`traits::overlapping_impls(.., IntercrateMode::Issue43355, SkipLeakCheck::default(), ..)`
call of `Children::insert` together with its `on_overlap` closure
(lines 110-139).  Returns the `(le, ge)` pair, plus `some lint` exactly when
the closure's `Issue33140` arm overwrote `last_lint`. -/
def siblingCheck (o : Oracle) (impl_def_id possible_sibling : Nat) :
    Except OverlapError (Bool × Bool × Option FutureCompatOverlapError) :=
  match o.overlapping .Issue43355 .No possible_sibling impl_def_id with
  | none => .ok (false, false, none)
  | some overlap =>
    match o.impls_are_allowed_to_overlap impl_def_id possible_sibling with
    | some .Permitted => .ok (false, false, none)
    | some .Issue33140 =>
        .ok (false, false, some ⟨overlap_error possible_sibling overlap, .Issue33140⟩)
    | none =>
        let le := o.specializes impl_def_id possible_sibling
        let ge := o.specializes possible_sibling impl_def_id
        if le = ge then .error (overlap_error possible_sibling overlap)
        else .ok (le, ge, none)

/-- The future-compatibility re-check of `Children::insert` (lines 156-192):
run only when the pair resolved with no specialization direction; first the
`IntercrateMode::Fixed` check (recording an `Issue43355` lint, displacing any
earlier lint), then — only if no lint is pending at all — the
`SkipLeakCheck::Yes` check (recording a `LeakCheck` lint). -/
def futureCompatCheck (o : Oracle) (impl_def_id possible_sibling : Nat)
    (last_lint : Option FutureCompatOverlapError) : Option FutureCompatOverlapError :=
  match o.impls_are_allowed_to_overlap impl_def_id possible_sibling with
  | some _ => last_lint
  | none =>
    let l1 :=
      match o.overlapping .Fixed .No possible_sibling impl_def_id with
      | some overlap => some ⟨overlap_error possible_sibling overlap, .Issue43355⟩
      | none => last_lint
    match l1 with
    | none =>
        match o.overlapping .Fixed .Yes possible_sibling impl_def_id with
        | some overlap => some ⟨overlap_error possible_sibling overlap, .LeakCheck⟩
        | none => none
    | some l => some l

/-- The sibling scan of `Children::insert` (the `for possible_sibling` loop,
lines 84-196), carrying `last_lint` and `replace_children`.  `.inl s` is the
early `return ShouldRecurseOn(s)`; `.inr (lint, replace)` is scan completion. -/
def insertScan (o : Oracle) (impl_def_id : Nat) :
    List Nat → Option FutureCompatOverlapError → List Nat →
    Except OverlapError (Nat ⊕ (Option FutureCompatOverlapError × List Nat))
  | [], last_lint, replace => .ok (.inr (last_lint, replace))
  | s :: rest, last_lint, replace =>
    match siblingCheck o impl_def_id s with
    | .error e => .error e
    | .ok (le, ge, upd) =>
      let lint1 := match upd with | some l => some l | none => last_lint
      if le && !ge then .ok (.inl s)
      else if ge && !le then insertScan o impl_def_id rest lint1 (replace ++ [s])
      else insertScan o impl_def_id rest (futureCompatCheck o impl_def_id s lint1) replace

/-- `Children::insert` (lines 68-206).  Returns the `Inserted` outcome (or the
overlap error) together with the mutated `Children`: on success as a new
sibling the impl is inserted blindly; the `filtered` enumeration may have
created an empty bucket in every case. -/
def Children.insert (o : Oracle) (c : Children) (impl_def_id : Nat)
    (simplified_self : Option Nat) :
    Except OverlapError Inserted × Children :=
  let pair :=
    match simplified_self with
    | some st => c.filtered st
    | none => (c.iter, c)
  match insertScan o impl_def_id pair.1 none [] with
  | .error e => (.error e, pair.2)
  | .ok (.inl s) => (.ok (.ShouldRecurseOn s), pair.2)
  | .ok (.inr (last_lint, replace)) =>
    if replace.isEmpty then
      (.ok (.BecameNewSibling last_lint), pair.2.insert_blindly o impl_def_id)
    else (.ok (.ReplaceChildren replace), pair.2)

/-- Decidable equality for `Except` results, used to evaluate concrete
insertions. -/
instance exceptDecEq {ε α : Type} [DecidableEq ε] [DecidableEq α] :
    DecidableEq (Except ε α) := fun x y =>
  match x, y with
  | .error a, .error b =>
    if h : a = b then isTrue (by rw [h]) else isFalse (by intro hh; cases hh; exact h rfl)
  | .ok a, .ok b =>
    if h : a = b then isTrue (by rw [h]) else isFalse (by intro hh; cases hh; exact h rfl)
  | .error _, .ok _ => isFalse (by intro hh; cases hh)
  | .ok _, .error _ => isFalse (by intro hh; cases hh)

/-- `Graph`: the forest-wide parent and children maps. -/
structure Graph where
  parent : List (Nat × Nat)
  children : List (Nat × Children)
deriving DecidableEq

/-- The empty graph. -/
def Graph.emptyG : Graph := ⟨[], []⟩

/-- The `Children` set of a node (`children.entry(p)` view, default empty). -/
def Graph.childrenAt (g : Graph) (p : Nat) : Children :=
  (lookupA g.children p).getD Children.empty

/-- One sequence of a `Children` set: the blanket sequence (`none`) or one
nonblanket bucket (`some st`). -/
def Children.seqAt (c : Children) : Option Nat → List Nat
  | none => c.blanket_impls
  | some st => (lookupA c.nonblanket_impls st).getD []

/-- One sequence of the forest: bucket `k` of node `p`. -/
def Graph.seqAt (g : Graph) (p : Nat) (k : Option Nat) : List Nat :=
  (g.childrenAt p).seqAt k

/-- Result of `Graph::insert`: success with an optional deferred lint, a hard
overlap error, or fuel exhaustion of the model's descent loop (the source
loops unboundedly).  Mutations performed before an error persist (`&mut self`),
so every arm carries the resulting graph. -/
inductive InsResult where
  | fuelOut (g : Graph)
  | err (e : OverlapError) (g : Graph)
  | ok (lint : Option FutureCompatOverlapError) (g : Graph)
deriving DecidableEq

/-- The graph carried by an `InsResult`. -/
def InsResult.graph : InsResult → Graph
  | .fuelOut g => g
  | .err _ g => g
  | .ok _ g => g

/-- The `ReplaceChildren` tree surgery of `Graph::insert` (lines 295-333),
followed by the `parent.insert` after the loop break (line 340): remove the
displaced impls from the cursor node's children and insert the new impl there;
re-point the displaced parents to the new impl and the new impl's parent to
the cursor; add the displaced impls as children of the new impl. -/
def Graph.surgery (o : Oracle) (impl_def_id parent : Nat)
    (grand_children_to_be : List Nat) (g1 : Graph) : Graph :=
  let siblings := (lookupA g1.children parent).getD Children.empty
  let siblings :=
    (grand_children_to_be.foldl (fun cc d => cc.remove_existing o d)
      siblings).insert_blindly o impl_def_id
  let g2 : Graph := ⟨g1.parent, insertA g1.children parent siblings⟩
  let g3 : Graph :=
    ⟨grand_children_to_be.foldl (fun pm d => insertA pm d impl_def_id) g2.parent,
      g2.children⟩
  let g4 : Graph := ⟨insertA g3.parent impl_def_id parent, g3.children⟩
  let nc :=
    grand_children_to_be.foldl (fun cc d => cc.insert_blindly o d)
      ((lookupA g4.children impl_def_id).getD Children.empty)
  let g5 : Graph := ⟨g4.parent, insertA g4.children impl_def_id nc⟩
  ⟨insertA g5.parent impl_def_id parent, g5.children⟩

/-- The descent loop of `Graph::insert` (lines 284-338) followed by the final
`parent.insert` (line 340), with an explicit fuel bound on the number of
`ShouldRecurseOn` descents. -/
def Graph.insertLoop (o : Oracle) (impl_def_id : Nat) (simplified : Option Nat) :
    Nat → Nat → Graph → InsResult
  | 0, _, g => .fuelOut g
  | fuel + 1, parent, g =>
    let c := (lookupA g.children parent).getD Children.empty
    let rc := Children.insert o c impl_def_id simplified
    let g1 : Graph := ⟨g.parent, insertA g.children parent rc.2⟩
    match rc.1 with
    | .error e => .err e g1
    | .ok (.BecameNewSibling opt_lint) =>
        .ok opt_lint ⟨insertA g1.parent impl_def_id parent, g1.children⟩
    | .ok (.ShouldRecurseOn next) =>
        Graph.insertLoop o impl_def_id simplified fuel next g1
    | .ok (.ReplaceChildren grand_children_to_be) =>
        .ok none (Graph.surgery o impl_def_id parent grand_children_to_be g1)

/-- `Graph::insert` (lines 248-342).  The `assert!(impl_def_id.is_local())`
is a caller precondition outside this model. -/
def Graph.insert (o : Oracle) (g : Graph) (impl_def_id : Nat) (fuel : Nat) : InsResult :=
  let trait_ref := o.impl_trait_ref impl_def_id
  let trait_def_id := trait_ref.def_id
  if trait_ref.references_error then
    .ok none
      ⟨insertA g.parent impl_def_id trait_def_id,
        updateA g.children trait_def_id Children.empty (·.insert_blindly o impl_def_id)⟩
  else
    Graph.insertLoop o impl_def_id (skey o impl_def_id) fuel trait_def_id g

/-- `Graph::record_impl_from_cstore` (lines 345-354): `none` models the
`bug!` abort (fatal internal-consistency violation). -/
def Graph.record_impl_from_cstore (o : Oracle) (g : Graph) (parent child : Nat) :
    Option Graph :=
  match lookupA g.parent child with
  | some _ => none
  | none =>
      some ⟨insertA g.parent child parent,
        updateA g.children parent Children.empty (·.insert_blindly o child)⟩

/-- `removeEach rs l` removes (the first occurrence of) each element of `rs`
from `l`, in order — the effect of the tree-surgery removal fold on one bucket. -/
def removeEach (rs : List Nat) (l : List Nat) : List Nat :=
  rs.foldl removeFirst l

/-- The `Children` value actually scanned by `Children.insert` (after the
lazy bucket creation of `filtered`). -/
def Children.scanned (c : Children) (simplified_self : Option Nat) : Children :=
  match simplified_self with
  | some st => (c.filtered st).2
  | none => c

/-- A candidate sibling classified `ge && !le` by the scan (it will be
accumulated into the pending replace list). -/
def geStep (o : Oracle) (n s : Nat) : Bool :=
  match siblingCheck o n s with
  | .ok (_, ge, _) => ge && !(o.specializes n s)
  | .error _ => false

/-- A candidate sibling on which the scan continues: the comparison neither
errors out nor classifies `le && !ge`. -/
def benignStep (o : Oracle) (n s : Nat) : Prop :=
  ∃ le ge u, siblingCheck o n s = .ok (le, ge, u) ∧ ¬(le = true ∧ ge = false)

/-! ### Invariants -/

/-- The forest invariant of spec §3 (claim C4): `parent` and `children` are
inverse views — an impl with a parent entry occurs exactly once in the
sequence its parent and shape key designate — and every occurrence of an impl
in any sequence is that designated one (hence each impl id appears in exactly
one Children set forest-wide, exactly once, in either the blanket sequence or
the bucket of its own shape key, never both). -/
def structuralInv (o : Oracle) (g : Graph) : Prop :=
  (∀ i p, lookupA g.parent i = some p → (g.seqAt p (skey o i)).count i = 1) ∧
  (∀ i p k, i ∈ g.seqAt p k → lookupA g.parent i = some p ∧ k = skey o i)

/-- A rank certificate for the parent map: every parent edge strictly
decreases the rank, so the parent relation has no cycles. -/
def rankOk (g : Graph) (rank : Nat → Nat) : Prop :=
  ∀ i p, lookupA g.parent i = some p → rank p < rank i

/-- The bucket keys of every stored `Children` set are duplicate-free (true
of a hash map; maintained by `insertA` / `updateA`). -/
def wellKeyed (g : Graph) : Prop :=
  ∀ p c, lookupA g.children p = some c → (c.nonblanket_impls.map Prod.fst).Nodup

/-- `rootedIn g fuel i`: following parent pointers from `i` reaches a node
with no parent entry (a trait root) within `fuel` steps. -/
def rootedIn (g : Graph) : Nat → Nat → Bool
  | 0, i => (lookupA g.parent i).isNone
  | fuel + 1, i =>
    match lookupA g.parent i with
    | none => true
    | some p => rootedIn g fuel p

/-- One caller step: run `Graph::insert` and keep the resulting graph
(also after an `Err`, matching `&mut self`). -/
def stepGraph (o : Oracle) (fuel : Nat) (g : Graph) (n : Nat) : Graph :=
  (Graph.insert o g n fuel).graph

/-- A sequence of `Graph::insert` calls in declaration order. -/
def insertSeq (o : Oracle) (fuel : Nat) (g : Graph) (ns : List Nat) : Graph :=
  ns.foldl (stepGraph o fuel) g

/-- Freshness of a batch of impl ids about to be inserted: pairwise distinct,
not yet parented, not yet a parent of anything, and distinct from the trait
def-ids involved (an impl and a trait are different definitions). -/
def freshGroup (o : Oracle) (g : Graph) (ns : List Nat) : Prop :=
  ns.Nodup ∧
  (∀ m ∈ ns, lookupA g.parent m = none) ∧
  (∀ m ∈ ns, ∀ j, lookupA g.parent j ≠ some m) ∧
  (∀ m ∈ ns, ∀ m2 ∈ ns, (o.impl_trait_ref m2).def_id ≠ m)

/-! ### Concrete fixtures used by witnesses and counterexamples -/

/-- A concrete trait-ref record for test oracles. -/
def mkTRI (d : Nat) (st : Option Nat) : TraitRefInfo := ⟨d, st, false, "Tr", true, "Ty"⟩

/-- A concrete overlap descriptor. -/
def mkOvl : OverlapResult := ⟨mkTRI 0 none, [], false⟩

/-- Everything blanket under trait `0`, every pair overlaps with no
specialization direction and no policy exemption: hard conflicts. -/
def oConflict : Oracle :=
  ⟨fun _ => mkTRI 0 none, fun _ _ => false, fun _ _ => none, fun _ _ _ _ => some mkOvl⟩

/-- Like `oConflict`, but impl `2` has shape key `7`. -/
def oShape : Oracle :=
  ⟨fun i => if i = 2 then mkTRI 0 (some 7) else mkTRI 0 none,
    fun _ _ => false, fun _ _ => none, fun _ _ _ _ => some mkOvl⟩

/-- A graph holding the single blanket impl `1` under trait root `0`. -/
def gOne : Graph := ⟨[(1, 0)], [(0, ⟨[], [1]⟩)]⟩

/-- The overlap error naming sibling `1` produced from `mkOvl`. -/
def eConflict : OverlapError := ⟨1, "Tr", some "Ty", [], false⟩

/-- Lint-priority fixture (new impl `5`, siblings `1` then `2`): sibling `1`
overlaps under the primary check and is policy-tolerated as `Issue33140`;
sibling `2` shows no overlap under the primary and `Fixed` checks but does
overlap once the leak check is skipped. -/
def oLint : Oracle :=
  ⟨fun _ => mkTRI 0 none, fun _ _ => false,
    fun a b => if a = 5 ∧ b = 1 then some .Issue33140 else none,
    fun m sk a b =>
      if m = .Issue43355 ∧ sk = .No ∧ a = 1 ∧ b = 5 then some mkOvl
      else if m = .Fixed ∧ sk = .Yes ∧ a = 2 ∧ b = 5 then some mkOvl
      else none⟩

/-- The children set scanned in the lint-priority fixture. -/
def cLint : Children := ⟨[], [1, 2]⟩

/-- Scenario 4 oracle: trait `0`; blanket impls `1`, `2`, `3`; `1` and `2`
each specialize `3` and overlap it; `1` and `2` do not overlap each other. -/
def oScen4 : Oracle :=
  ⟨fun _ => mkTRI 0 none,
    fun a b => decide ((a = 1 ∧ b = 3) ∨ (a = 2 ∧ b = 3)),
    fun _ _ => none,
    fun _ _ a b =>
      if (a = 1 ∧ b = 3) ∨ (a = 2 ∧ b = 3) ∨ (a = 3 ∧ b = 1) ∨ (a = 3 ∧ b = 2)
      then some mkOvl else none⟩

/-- The graph with blanket siblings `1`, `2` under trait root `0`. -/
def gScen4 : Graph := ⟨[(1, 0), (2, 0)], [(0, ⟨[], [1, 2]⟩)]⟩

/-- Scenario 2 oracle: impls `1`, `2` with the same shape key `5`; `2`
strictly specializes `1`. -/
def oScen2 : Oracle :=
  ⟨fun _ => mkTRI 0 (some 5),
    fun a b => decide (a = 2 ∧ b = 1),
    fun _ _ => none,
    fun _ _ a b => if (a = 1 ∧ b = 2) ∨ (a = 2 ∧ b = 1) then some mkOvl else none⟩

/-- The graph with impl `1` (shape `5`) under trait root `0`. -/
def gScen2 : Graph := ⟨[(1, 0)], [(0, ⟨[(5, [1])], []⟩)]⟩

/-- Scenario 1 oracle: impls `1` and `2` with distinct shape keys `10`, `20`,
and an adversarial overlap oracle (always overlapping, always specializing)
that would derail any comparison actually made. -/
def oShapes2 : Oracle :=
  ⟨fun i => if i = 1 then mkTRI 0 (some 10)
    else if i = 2 then mkTRI 0 (some 20) else mkTRI 0 none,
    fun _ _ => true, fun _ _ => none, fun _ _ _ _ => some mkOvl⟩

/-- An oracle whose trait references all carry a resolution error. -/
def oErrRef : Oracle :=
  ⟨fun _ => ⟨0, none, true, "Tr", true, "Ty"⟩,
    fun _ _ => false, fun _ _ => none, fun _ _ _ _ => none⟩

/-! ### Association-list lemmas -/

theorem lookupA_insertA_self {α : Type} (l : List (Nat × α)) (k : Nat) (v : α) :
    lookupA (insertA l k v) k = some v := by
  induction l with
  | nil => simp [insertA, lookupA]
  | cons hd tl ih =>
    obtain ⟨k', w⟩ := hd
    by_cases h : k' = k
    · simp [insertA, h, lookupA]
    · simp [insertA, h, lookupA, ih]

theorem lookupA_insertA_ne {α : Type} (l : List (Nat × α)) (k k' : Nat) (v : α)
    (h : k' ≠ k) : lookupA (insertA l k v) k' = lookupA l k' := by
  induction l with
  | nil => simp [insertA, lookupA, Ne.symm h]
  | cons hd tl ih =>
    obtain ⟨k₀, w⟩ := hd
    by_cases h0 : k₀ = k
    · subst h0
      simp [insertA, lookupA, Ne.symm h]
    · by_cases h1 : k₀ = k'
      · simp [insertA, h0, lookupA, h1, h]
      · simp [insertA, h0, lookupA, h1, ih]

theorem lookupA_append_single {α : Type} (l : List (Nat × α)) (k k' : Nat) (v : α) :
    lookupA (l ++ [(k, v)]) k' =
      match lookupA l k' with
      | some w => some w
      | none => if k = k' then some v else none := by
  induction l with
  | nil => simp [lookupA]
  | cons hd tl ih =>
    obtain ⟨k₀, w⟩ := hd
    by_cases h : k₀ = k'
    · simp [lookupA, h]
    · simp [lookupA, h, ih]

theorem lookupA_updateA_self {α : Type} (l : List (Nat × α)) (k : Nat) (d : α)
    (f : α → α) : lookupA (updateA l k d f) k = some (f ((lookupA l k).getD d)) := by
  unfold updateA
  cases h : lookupA l k with
  | some v => simp [h, lookupA_insertA_self]
  | none => simp [h, lookupA_append_single]

theorem lookupA_updateA_ne {α : Type} (l : List (Nat × α)) (k k' : Nat) (d : α)
    (f : α → α) (hne : k' ≠ k) : lookupA (updateA l k d f) k' = lookupA l k' := by
  unfold updateA
  cases h : lookupA l k with
  | some v => simp [lookupA_insertA_ne _ _ _ _ hne]
  | none =>
    rw [lookupA_append_single]
    cases h' : lookupA l k' with
    | some w => simp
    | none => simp [Ne.symm hne]

/-! ### removeFirst / fold lemmas -/

theorem count_removeFirst_self (l : List Nat) (a : Nat) :
    (removeFirst l a).count a = l.count a - 1 := by
  induction l with
  | nil => simp [removeFirst]
  | cons x rest ih =>
    by_cases h : x = a
    · simp [removeFirst, h, List.count_cons_self]
    · simp only [removeFirst, if_neg h, List.count_cons_of_ne (Ne.symm h), ih]

theorem count_removeFirst_ne (l : List Nat) (a b : Nat) (h : b ≠ a) :
    (removeFirst l a).count b = l.count b := by
  induction l with
  | nil => simp [removeFirst]
  | cons x rest ih =>
    by_cases hx : x = a
    · subst hx
      simp [removeFirst, List.count_cons_of_ne h]
    · simp [removeFirst, hx, List.count_cons, ih]

theorem count_removeFirst_le (l : List Nat) (a b : Nat) :
    (removeFirst l a).count b ≤ l.count b := by
  by_cases h : b = a
  · subst h
    rw [count_removeFirst_self]
    exact Nat.sub_le _ _
  · rw [count_removeFirst_ne l a b h]

theorem count_removeEach_le (rs : List Nat) (l : List Nat) (b : Nat) :
    (removeEach rs l).count b ≤ l.count b := by
  induction rs generalizing l with
  | nil => simp [removeEach]
  | cons r rest ih =>
    calc (removeEach (r :: rest) l).count b = (removeEach rest (removeFirst l r)).count b := rfl
      _ ≤ (removeFirst l r).count b := ih _
      _ ≤ l.count b := count_removeFirst_le _ _ _

theorem count_removeEach_not_mem (rs : List Nat) (l : List Nat) (b : Nat)
    (h : b ∉ rs) : (removeEach rs l).count b = l.count b := by
  induction rs generalizing l with
  | nil => simp [removeEach]
  | cons r rest ih =>
    have hbr : b ≠ r := fun hh => h (hh ▸ List.mem_cons_self r rest)
    have hrest : b ∉ rest := fun hh => h (List.mem_cons_of_mem r hh)
    calc (removeEach (r :: rest) l).count b = (removeEach rest (removeFirst l r)).count b := rfl
      _ = (removeFirst l r).count b := ih _ hrest
      _ = l.count b := count_removeFirst_ne _ _ _ hbr

theorem count_removeEach_mem (rs : List Nat) (l : List Nat) (b : Nat)
    (hmem : b ∈ rs) (hle : l.count b ≤ 1) : (removeEach rs l).count b = 0 := by
  induction rs generalizing l with
  | nil => simp at hmem
  | cons r rest ih =>
    by_cases hbr : b = r
    · subst hbr
      have hstep : removeEach (b :: rest) l = removeEach rest (removeFirst l b) := rfl
      have h0 : (removeFirst l b).count b = 0 := by
        rw [count_removeFirst_self]
        omega
      have hmono := count_removeEach_le rest (removeFirst l b) b
      rw [hstep]
      omega
    · have hrest : b ∈ rest := by
        rcases List.mem_cons.mp hmem with h | h
        · exact absurd h hbr
        · exact h
      have hle' : (removeFirst l r).count b ≤ 1 :=
        le_trans (count_removeFirst_le _ _ _) hle
      exact ih _ hrest hle'

theorem not_mem_removeEach (rs : List Nat) (l : List Nat) (b : Nat)
    (h : b ∉ l) : b ∉ removeEach rs l := by
  intro hmem
  have h1 : 0 < (removeEach rs l).count b := List.count_pos_iff.mpr hmem
  have h2 : l.count b = 0 := List.count_eq_zero.mpr h
  have := count_removeEach_le rs l b
  omega

/-! ### Children sequence lemmas -/

theorem seqAt_insert_blindly (o : Oracle) (c : Children) (i : Nat) (k : Option Nat) :
    (c.insert_blindly o i).seqAt k =
      c.seqAt k ++ (if k = skey o i then [i] else []) := by
  unfold Children.insert_blindly
  cases hs : skey o i with
  | none =>
    cases k with
    | none => simp [Children.seqAt]
    | some st => simp [Children.seqAt]
  | some st =>
    cases k with
    | none => simp [Children.seqAt]
    | some st' =>
      by_cases h : st' = st
      · subst h
        simp [Children.seqAt, lookupA_updateA_self]
      · simp [Children.seqAt, lookupA_updateA_ne _ _ _ _ _ h, h]

theorem seqAt_remove_existing (o : Oracle) (c : Children) (d : Nat) (k : Option Nat) :
    (c.remove_existing o d).seqAt k =
      if k = skey o d then removeFirst (c.seqAt k) d else c.seqAt k := by
  unfold Children.remove_existing
  cases hs : skey o d with
  | none =>
    cases k with
    | none => simp [Children.seqAt]
    | some st => simp [Children.seqAt]
  | some st =>
    cases k with
    | none => simp [Children.seqAt]
    | some st' =>
      by_cases h : st' = st
      · subst h
        simp [Children.seqAt, lookupA_updateA_self]
      · simp [Children.seqAt, lookupA_updateA_ne _ _ _ _ _ h, h]

theorem seqAt_filtered_snd (c : Children) (st : Nat) (k : Option Nat) :
    (c.filtered st).2.seqAt k = c.seqAt k := by
  unfold Children.filtered
  cases k with
  | none => simp [Children.seqAt]
  | some st' =>
    by_cases h : st' = st
    · subst h
      simp [Children.seqAt, lookupA_updateA_self]
    · simp [Children.seqAt, lookupA_updateA_ne _ _ _ _ _ h]

theorem filtered_fst (c : Children) (st : Nat) :
    (c.filtered st).1 = c.candidates (some st) := by
  unfold Children.filtered Children.candidates
  simp [lookupA_updateA_self]

theorem seqAt_scanned (c : Children) (simpl : Option Nat) (k : Option Nat) :
    (c.scanned simpl).seqAt k = c.seqAt k := by
  cases simpl with
  | none => rfl
  | some st => exact seqAt_filtered_snd c st k

theorem seqAt_foldl_remove (o : Oracle) (ds : List Nat) (c : Children) (k : Option Nat) :
    (ds.foldl (fun cc d => cc.remove_existing o d) c).seqAt k =
      removeEach (ds.filter (fun d => skey o d = k)) (c.seqAt k) := by
  induction ds generalizing c with
  | nil => simp [removeEach]
  | cons d rest ih =>
    have hstep : (d :: rest).foldl (fun cc dd => cc.remove_existing o dd) c =
        rest.foldl (fun cc dd => cc.remove_existing o dd) (c.remove_existing o d) := rfl
    rw [hstep, ih]
    by_cases h : skey o d = k
    · have : (decide (skey o d = k)) = true := by simp [h]
      simp only [List.filter_cons, this, if_pos]
      have : removeEach (d :: List.filter (fun dd => decide (skey o dd = k)) rest)
          (c.seqAt k) =
          removeEach (List.filter (fun dd => decide (skey o dd = k)) rest)
            (removeFirst (c.seqAt k) d) := rfl
      rw [this, seqAt_remove_existing]
      simp [h.symm]
    · have : (decide (skey o d = k)) = false := by simp [h]
      simp only [List.filter_cons, this, if_neg]
      rw [seqAt_remove_existing]
      simp only [Bool.false_eq_true, if_false]
      have hne : ¬(k = skey o d) := fun hh => h hh.symm
      simp [hne]

theorem seqAt_foldl_insert_blindly (o : Oracle) (ds : List Nat) (c : Children)
    (k : Option Nat) :
    (ds.foldl (fun cc d => cc.insert_blindly o d) c).seqAt k =
      c.seqAt k ++ ds.filter (fun d => skey o d = k) := by
  induction ds generalizing c with
  | nil => simp
  | cons d rest ih =>
    have hstep : (d :: rest).foldl (fun cc dd => cc.insert_blindly o dd) c =
        rest.foldl (fun cc dd => cc.insert_blindly o dd) (c.insert_blindly o d) := rfl
    rw [hstep, ih, seqAt_insert_blindly]
    by_cases h : skey o d = k
    · simp [h, List.filter_cons]
    · have hne : ¬(k = skey o d) := fun hh => h hh.symm
      simp [h, hne, List.filter_cons]

/-! ### Sibling-scan characterization -/

theorem insertScan_cons (o : Oracle) (n s : Nat) (rest : List Nat)
    (lint : Option FutureCompatOverlapError) (acc : List Nat) :
    insertScan o n (s :: rest) lint acc =
      match siblingCheck o n s with
      | .error e => .error e
      | .ok (le, ge, upd) =>
        let lint1 := match upd with | some l => some l | none => lint
        if le && !ge then .ok (.inl s)
        else if ge && !le then insertScan o n rest lint1 (acc ++ [s])
        else insertScan o n rest (futureCompatCheck o n s lint1) acc := rfl

theorem geStep_eq (o : Oracle) (n s : Nat) (le ge : Bool)
    (u : Option FutureCompatOverlapError) (h : siblingCheck o n s = .ok (le, ge, u)) :
    geStep o n s = (ge && !le) := by
  have hle : le = o.specializes n s ∧ ge = o.specializes s n ∨ (le = false ∧ ge = false) := by
    unfold siblingCheck at h
    cases ho : o.overlapping .Issue43355 .No s n with
    | none =>
      rw [ho] at h
      cases h
      exact .inr ⟨rfl, rfl⟩
    | some ovl =>
      rw [ho] at h
      cases ha : o.impls_are_allowed_to_overlap n s with
      | none =>
        rw [ha] at h
        by_cases hq : o.specializes n s = o.specializes s n
        · simp [hq] at h
        · simp only [hq, if_neg, if_false] at h
          cases h
          exact .inl ⟨rfl, rfl⟩
      | some kk =>
        rw [ha] at h
        cases kk <;>
          (simp only [Except.ok.injEq, Prod.mk.injEq] at h
           exact .inr ⟨h.1.symm, h.2.1.symm⟩)
  unfold geStep
  rw [h]
  rcases hle with ⟨h1, h2⟩ | ⟨h1, h2⟩ <;> simp [h1, h2]

theorem insertScan_inr (o : Oracle) (n : Nat) :
    ∀ (sibs : List Nat) (lint : Option FutureCompatOverlapError) (acc : List Nat)
      (l : Option FutureCompatOverlapError) (r : List Nat),
      insertScan o n sibs lint acc = .ok (.inr (l, r)) →
      r = acc ++ sibs.filter (geStep o n) := by
  intro sibs
  induction sibs with
  | nil =>
    intro lint acc l r h
    unfold insertScan at h
    cases h
    simp
  | cons s rest ih =>
    intro lint acc l r h
    unfold insertScan at h
    cases hc : siblingCheck o n s with
    | error e => rw [hc] at h; cases h
    | ok v =>
      obtain ⟨le, ge, u⟩ := v
      rw [hc] at h
      simp only at h
      have hge := geStep_eq o n s le ge u hc
      by_cases h1 : (le && !ge) = true
      · rw [if_pos h1] at h
        cases h
      · rw [if_neg h1] at h
        by_cases h2 : (ge && !le) = true
        · rw [if_pos h2] at h
          have := ih _ _ _ _ h
          rw [this]
          have : geStep o n s = true := by rw [hge]; exact h2
          simp [List.filter_cons, this]
        · rw [if_neg h2] at h
          have := ih _ _ _ _ h
          rw [this]
          have : geStep o n s = false := by rw [hge]; simpa using h2
          simp [List.filter_cons, this]

theorem insertScan_inl_mem (o : Oracle) (n : Nat) :
    ∀ (sibs : List Nat) (lint : Option FutureCompatOverlapError) (acc : List Nat)
      (s : Nat), insertScan o n sibs lint acc = .ok (.inl s) → s ∈ sibs := by
  intro sibs
  induction sibs with
  | nil =>
    intro lint acc s h
    unfold insertScan at h
    cases h
  | cons x rest ih =>
    intro lint acc s h
    unfold insertScan at h
    cases hc : siblingCheck o n x with
    | error e => rw [hc] at h; cases h
    | ok v =>
      obtain ⟨le, ge, u⟩ := v
      rw [hc] at h
      simp only at h
      by_cases h1 : (le && !ge) = true
      · rw [if_pos h1] at h
        cases h
        exact List.mem_cons_self _ _
      · rw [if_neg h1] at h
        by_cases h2 : (ge && !le) = true
        · rw [if_pos h2] at h
          exact List.mem_cons_of_mem _ (ih _ _ _ h)
        · rw [if_neg h2] at h
          exact List.mem_cons_of_mem _ (ih _ _ _ h)

theorem insertScan_append_benign (o : Oracle) (n : Nat) :
    ∀ (pre rest : List Nat) (lint : Option FutureCompatOverlapError) (acc : List Nat),
      (∀ x ∈ pre, benignStep o n x) →
      ∃ lint' acc', insertScan o n (pre ++ rest) lint acc = insertScan o n rest lint' acc' := by
  intro pre
  induction pre with
  | nil => exact fun rest lint acc _ => ⟨lint, acc, rfl⟩
  | cons x xs ih =>
    intro rest lint acc hben
    obtain ⟨le, ge, u, hc, hnr⟩ := hben x (List.mem_cons_self _ _)
    have hstep : (x :: xs) ++ rest = x :: (xs ++ rest) := rfl
    rw [hstep, insertScan_cons, hc]
    simp only
    have h1 : (le && !ge) = false := by
      cases le <;> cases ge <;> simp_all
    rw [h1]
    simp only [Bool.false_eq_true, if_false]
    by_cases h2 : (ge && !le) = true
    · rw [if_pos h2]
      exact ih rest _ _ (fun y hy => hben y (List.mem_cons_of_mem _ hy))
    · rw [if_neg h2]
      exact ih rest _ _ (fun y hy => hben y (List.mem_cons_of_mem _ hy))

theorem insertScan_error_at (o : Oracle) (n S : Nat) (rest : List Nat)
    (lint : Option FutureCompatOverlapError) (acc : List Nat) (e : OverlapError)
    (h : siblingCheck o n S = .error e) :
    insertScan o n (S :: rest) lint acc = .error e := by
  unfold insertScan
  rw [h]

theorem insertScan_recurse_at (o : Oracle) (n S : Nat) (rest : List Nat)
    (lint : Option FutureCompatOverlapError) (acc : List Nat)
    (u : Option FutureCompatOverlapError)
    (h : siblingCheck o n S = .ok (true, false, u)) :
    insertScan o n (S :: rest) lint acc = .ok (.inl S) := by
  unfold insertScan
  rw [h]
  simp

/-- `Children.insert`, restated through the materialized candidate list. -/
theorem children_insert_eq (o : Oracle) (c : Children) (n : Nat) (simpl : Option Nat) :
    Children.insert o c n simpl =
      (match insertScan o n (c.candidates simpl) none [] with
       | .error e => (.error e, c.scanned simpl)
       | .ok (.inl s) => (.ok (.ShouldRecurseOn s), c.scanned simpl)
       | .ok (.inr (l, r)) =>
         if r.isEmpty then (.ok (.BecameNewSibling l), (c.scanned simpl).insert_blindly o n)
         else (.ok (.ReplaceChildren r), c.scanned simpl)) := by
  cases simpl with
  | none => rfl
  | some st =>
    unfold Children.insert Children.scanned
    dsimp only
    rw [filtered_fst c st]

theorem children_insert_err (o : Oracle) (c : Children) (n : Nat) (simpl : Option Nat)
    (e : OverlapError) (c₁ : Children)
    (h : Children.insert o c n simpl = (.error e, c₁)) :
    ∀ k, c₁.seqAt k = c.seqAt k := by
  rw [children_insert_eq] at h
  cases hscan : insertScan o n (c.candidates simpl) none [] with
  | error e' =>
    rw [hscan] at h
    cases h
    exact fun k => seqAt_scanned c simpl k
  | ok v =>
    rw [hscan] at h
    cases v with
    | inl s => cases h
    | inr p =>
      obtain ⟨l, r⟩ := p
      by_cases hr : r.isEmpty <;> simp [hr] at h

theorem children_insert_recurse (o : Oracle) (c : Children) (n : Nat) (simpl : Option Nat)
    (s : Nat) (c₁ : Children)
    (h : Children.insert o c n simpl = (.ok (.ShouldRecurseOn s), c₁)) :
    s ∈ c.candidates simpl ∧ ∀ k, c₁.seqAt k = c.seqAt k := by
  rw [children_insert_eq] at h
  cases hscan : insertScan o n (c.candidates simpl) none [] with
  | error e' => rw [hscan] at h; cases h
  | ok v =>
    rw [hscan] at h
    cases v with
    | inl s' =>
      simp only at h
      obtain ⟨h1, h2⟩ := Prod.mk.injEq .. ▸ h
      cases h
      exact ⟨insertScan_inl_mem o n _ _ _ _ hscan, fun k => seqAt_scanned c simpl k⟩
    | inr p =>
      obtain ⟨l, r⟩ := p
      by_cases hr : r.isEmpty <;> simp [hr] at h

theorem children_insert_sibling (o : Oracle) (c : Children) (n : Nat) (simpl : Option Nat)
    (l : Option FutureCompatOverlapError) (c₁ : Children)
    (h : Children.insert o c n simpl = (.ok (.BecameNewSibling l), c₁)) :
    ∀ k, c₁.seqAt k = c.seqAt k ++ (if k = skey o n then [n] else []) := by
  rw [children_insert_eq] at h
  cases hscan : insertScan o n (c.candidates simpl) none [] with
  | error e' => rw [hscan] at h; cases h
  | ok v =>
    rw [hscan] at h
    cases v with
    | inl s' => cases h
    | inr p =>
      obtain ⟨l', r⟩ := p
      by_cases hr : r.isEmpty
      · simp only [hr, if_pos] at h
        cases h
        intro k
        rw [seqAt_insert_blindly, seqAt_scanned]
      · simp [hr] at h

theorem children_insert_replace (o : Oracle) (c : Children) (n : Nat) (simpl : Option Nat)
    (ds : List Nat) (c₁ : Children)
    (h : Children.insert o c n simpl = (.ok (.ReplaceChildren ds), c₁)) :
    ds = (c.candidates simpl).filter (geStep o n) ∧ ds ≠ [] ∧
      ∀ k, c₁.seqAt k = c.seqAt k := by
  rw [children_insert_eq] at h
  cases hscan : insertScan o n (c.candidates simpl) none [] with
  | error e' => rw [hscan] at h; cases h
  | ok v =>
    rw [hscan] at h
    cases v with
    | inl s' => cases h
    | inr p =>
      obtain ⟨l', r⟩ := p
      by_cases hr : r.isEmpty
      · simp [hr] at h
      · simp only [hr, if_neg, Bool.false_eq_true, if_false] at h
        obtain ⟨h1, h2⟩ := Prod.mk.injEq .. ▸ h
        cases h
        refine ⟨?_, ?_, fun k => seqAt_scanned c simpl k⟩
        · have := insertScan_inr o n _ _ _ _ _ hscan
          simpa using this
        · intro hnil
          rw [hnil] at hr
          simp at hr

theorem children_insert_err1 (o : Oracle) (c : Children) (n : Nat) (simpl : Option Nat)
    (e : OverlapError) (h : (Children.insert o c n simpl).1 = .error e) :
    ∀ k, (Children.insert o c n simpl).2.seqAt k = c.seqAt k := by
  apply children_insert_err o c n simpl e
  rw [← h]

theorem children_insert_recurse1 (o : Oracle) (c : Children) (n : Nat) (simpl : Option Nat)
    (s : Nat) (h : (Children.insert o c n simpl).1 = .ok (.ShouldRecurseOn s)) :
    s ∈ c.candidates simpl ∧ ∀ k, (Children.insert o c n simpl).2.seqAt k = c.seqAt k := by
  apply children_insert_recurse o c n simpl s
  rw [← h]

theorem children_insert_sibling1 (o : Oracle) (c : Children) (n : Nat) (simpl : Option Nat)
    (l : Option FutureCompatOverlapError)
    (h : (Children.insert o c n simpl).1 = .ok (.BecameNewSibling l)) :
    ∀ k, (Children.insert o c n simpl).2.seqAt k =
      c.seqAt k ++ (if k = skey o n then [n] else []) := by
  apply children_insert_sibling o c n simpl l
  rw [← h]

theorem children_insert_replace1 (o : Oracle) (c : Children) (n : Nat) (simpl : Option Nat)
    (ds : List Nat) (h : (Children.insert o c n simpl).1 = .ok (.ReplaceChildren ds)) :
    ds = (c.candidates simpl).filter (geStep o n) ∧ ds ≠ [] ∧
      ∀ k, (Children.insert o c n simpl).2.seqAt k = c.seqAt k := by
  apply children_insert_replace o c n simpl ds
  rw [← h]

/-! ### Graph sequence lemmas and error preservation -/

theorem graph_seqAt_setChildren (pm : List (Nat × Nat)) (ch : List (Nat × Children))
    (p : Nat) (c : Children) (q : Nat) (k : Option Nat) :
    Graph.seqAt ⟨pm, insertA ch p c⟩ q k =
      if q = p then c.seqAt k else Graph.seqAt ⟨pm, ch⟩ q k := by
  by_cases h : q = p
  · subst h
    simp [Graph.seqAt, Graph.childrenAt, lookupA_insertA_self]
  · simp [Graph.seqAt, Graph.childrenAt, lookupA_insertA_ne _ _ _ _ h, h]

theorem insertLoop_err_preserves (o : Oracle) (n : Nat) (simpl : Option Nat) :
    ∀ (fuel P : Nat) (g : Graph) (e : OverlapError) (g' : Graph),
      Graph.insertLoop o n simpl fuel P g = .err e g' →
      g'.parent = g.parent ∧ ∀ p k, g'.seqAt p k = g.seqAt p k := by
  intro fuel
  induction fuel with
  | zero =>
    intro P g e g' h
    cases h
  | succ f ih =>
    intro P g e g' h
    unfold Graph.insertLoop at h
    dsimp only at h
    split at h
    · -- Children.insert errored
      rename_i heq
      cases h
      refine ⟨rfl, fun p k => ?_⟩
      rw [graph_seqAt_setChildren]
      by_cases hp : p = P
      · subst hp
        rw [if_pos rfl, children_insert_err1 o _ n simpl _ heq k]
        rfl
      · simp [hp]
    · -- BecameNewSibling: not an error
      cases h
    · -- ShouldRecurseOn: recurse
      rename_i next heq
      have hg1 := ih next _ e g' h
      obtain ⟨hp1, hs1⟩ := hg1
      have hrec := children_insert_recurse1 o _ n simpl next heq
      refine ⟨by rw [hp1], fun p k => ?_⟩
      rw [hs1 p k, graph_seqAt_setChildren]
      by_cases hp : p = P
      · subst hp
        rw [if_pos rfl, hrec.2 k]
        rfl
      · simp [hp]
    · -- ReplaceChildren: not an error
      cases h

theorem insertLoop_fuelOut_preserves (o : Oracle) (n : Nat) (simpl : Option Nat) :
    ∀ (fuel P : Nat) (g : Graph) (g' : Graph),
      Graph.insertLoop o n simpl fuel P g = .fuelOut g' →
      g'.parent = g.parent ∧ ∀ p k, g'.seqAt p k = g.seqAt p k := by
  intro fuel
  induction fuel with
  | zero =>
    intro P g g' h
    cases h
    exact ⟨rfl, fun _ _ => rfl⟩
  | succ f ih =>
    intro P g g' h
    unfold Graph.insertLoop at h
    dsimp only at h
    split at h
    · cases h
    · cases h
    · rename_i next heq
      have hg1 := ih next _ g' h
      obtain ⟨hp1, hs1⟩ := hg1
      have hrec := children_insert_recurse1 o _ n simpl next heq
      refine ⟨by rw [hp1], fun p k => ?_⟩
      rw [hs1 p k, graph_seqAt_setChildren]
      by_cases hp : p = P
      · subst hp
        rw [if_pos rfl, hrec.2 k]
        rfl
      · simp [hp]
    · cases h

/-! ### Unfolding helpers for Graph.insert -/

theorem insertLoop_step (o : Oracle) (n : Nat) (simpl : Option Nat) (fuel P : Nat)
    (g : Graph) :
    Graph.insertLoop o n simpl (fuel + 1) P g =
      match (Children.insert o (g.childrenAt P) n simpl).1 with
      | .error e =>
          .err e ⟨g.parent, insertA g.children P (Children.insert o (g.childrenAt P) n simpl).2⟩
      | .ok (.BecameNewSibling opt_lint) =>
          .ok opt_lint
            ⟨insertA g.parent n P,
              insertA g.children P (Children.insert o (g.childrenAt P) n simpl).2⟩
      | .ok (.ShouldRecurseOn next) =>
          Graph.insertLoop o n simpl fuel next
            ⟨g.parent, insertA g.children P (Children.insert o (g.childrenAt P) n simpl).2⟩
      | .ok (.ReplaceChildren ds) =>
          .ok none
            (Graph.surgery o n P ds
              ⟨g.parent, insertA g.children P (Children.insert o (g.childrenAt P) n simpl).2⟩) :=
  rfl

theorem graph_insert_unfold (o : Oracle) (g : Graph) (n fuel : Nat)
    (hre : (o.impl_trait_ref n).references_error = false) :
    Graph.insert o g n fuel =
      Graph.insertLoop o n (skey o n) fuel (o.impl_trait_ref n).def_id g := by
  unfold Graph.insert
  simp [hre]

theorem graph_insert_unfold_err_ref (o : Oracle) (g : Graph) (n fuel : Nat)
    (hre : (o.impl_trait_ref n).references_error = true) :
    Graph.insert o g n fuel =
      .ok none
        ⟨insertA g.parent n (o.impl_trait_ref n).def_id,
          updateA g.children (o.impl_trait_ref n).def_id Children.empty
            (·.insert_blindly o n)⟩ := by
  unfold Graph.insert
  simp [hre]

theorem graph_seqAt_updateChildren (pm : List (Nat × Nat)) (ch : List (Nat × Children))
    (p : Nat) (f : Children → Children) (q : Nat) (k : Option Nat) :
    Graph.seqAt ⟨pm, updateA ch p Children.empty f⟩ q k =
      if q = p then (f ((lookupA ch p).getD Children.empty)).seqAt k
      else Graph.seqAt ⟨pm, ch⟩ q k := by
  by_cases h : q = p
  · subst h
    simp [Graph.seqAt, Graph.childrenAt, lookupA_updateA_self]
  · simp [Graph.seqAt, Graph.childrenAt, lookupA_updateA_ne _ _ _ _ _ h, h]

/-! ### Claim C10 -/

/-- Claim C10: for every call of `Graph::insert` that returns `Err`, the
parent map is exactly as before the call, and no impl identifier is added to
or removed from any Children sequence (every sequence of every node, blanket
or bucket, is unchanged); hence the only structural change possible is the
creation of empty containers.  The new impl is only inserted (`insert_blindly`)
after the sibling scan completes without error, and parent pointers are only
written after the loop or during successful surgery. -/
theorem graph_insert_err_no_observable_mutation (o : Oracle) (g : Graph) (n fuel : Nat)
    (e : OverlapError) (g' : Graph) (h : Graph.insert o g n fuel = .err e g') :
    g'.parent = g.parent ∧ ∀ p k, g'.seqAt p k = g.seqAt p k := by
  cases hre : (o.impl_trait_ref n).references_error with
  | true =>
    rw [graph_insert_unfold_err_ref o g n fuel hre] at h
    cases h
  | false =>
    rw [graph_insert_unfold o g n fuel hre] at h
    exact insertLoop_err_preserves o n (skey o n) fuel _ g e g' h

/-- Witness for C10: the concrete conflicting insertion `2` into `gOne` under
`oConflict` fails, and the theorem applies to it. -/
theorem graph_insert_err_no_observable_mutation_witness :
    Graph.insert oConflict gOne 2 5 = .err eConflict gOne ∧
      (gOne.parent = gOne.parent ∧ ∀ p k, Graph.seqAt gOne p k = Graph.seqAt gOne p k) :=
  ⟨by decide,
    graph_insert_err_no_observable_mutation oConflict gOne 2 5 eConflict gOne (by decide)⟩

/-! ### Claim C1 -/

/-- Claim C1 counterexample: a failed insertion can still mutate the `Graph`.
Inserting impl `2` (shape key `7`) against the blanket sibling `1` returns
`Err` naming `1`, but the failed call has created an empty nonblanket bucket
for key `7` in the trait root's Children set, so the resulting graph differs
from the original — refuting "the failed insertion does not mutate the
Graph" read literally. -/
theorem graph_insert_overlap_err_cex :
    Graph.insert oShape gOne 2 5 =
      .err eConflict ⟨[(1, 0)], [(0, ⟨[(7, [])], [1]⟩)]⟩ ∧
      (⟨[(1, 0)], [(0, ⟨[(7, [])], [1]⟩)]⟩ : Graph) ≠ gOne := by
  constructor
  · decide
  · decide

/-- Claim C1 (amended): when the sibling scan at the trait root reaches a
candidate sibling `S` (all earlier candidates being ones the scan continues
past) that overlaps the new impl with no specialization direction in either
direction (`specializes` equal both ways) and no policy exemption,
`Graph::insert` returns `Err` with the overlap error naming `S`; the new impl
is left out of the forest, and the failed insertion changes neither the
parent map nor the contents of any Children sequence (at most empty
containers are created). -/
theorem graph_insert_overlap_err (o : Oracle) (g : Graph) (n fuel : Nat)
    (pre post : List Nat) (S : Nat) (ovl : OverlapResult)
    (hre : (o.impl_trait_ref n).references_error = false)
    (hcand : (g.childrenAt (o.impl_trait_ref n).def_id).candidates (skey o n) =
      pre ++ S :: post)
    (hpre : ∀ x ∈ pre, benignStep o n x)
    (hovl : o.overlapping .Issue43355 .No S n = some ovl)
    (hallow : o.impls_are_allowed_to_overlap n S = none)
    (hspec : o.specializes n S = o.specializes S n) :
    ∃ g', Graph.insert o g n (fuel + 1) = .err (overlap_error S ovl) g' ∧
      g'.parent = g.parent ∧ (∀ p k, g'.seqAt p k = g.seqAt p k) ∧
      (∀ p k, n ∉ g.seqAt p k → n ∉ g'.seqAt p k) := by
  have hSC : siblingCheck o n S = .error (overlap_error S ovl) := by
    unfold siblingCheck
    rw [hovl]
    dsimp only
    rw [hallow]
    simp [hspec]
  obtain ⟨lint', acc', hps⟩ :=
    insertScan_append_benign o n pre (S :: post) none [] hpre
  have hscan : insertScan o n (pre ++ S :: post) none [] = .error (overlap_error S ovl) := by
    rw [hps]
    exact insertScan_error_at o n S post lint' acc' _ hSC
  have hC : (Children.insert o (g.childrenAt (o.impl_trait_ref n).def_id) n (skey o n)).1 =
      .error (overlap_error S ovl) := by
    rw [children_insert_eq, hcand, hscan]
  have hins : Graph.insert o g n (fuel + 1) =
      .err (overlap_error S ovl)
        ⟨g.parent,
          insertA g.children (o.impl_trait_ref n).def_id
            (Children.insert o (g.childrenAt (o.impl_trait_ref n).def_id) n
              (skey o n)).2⟩ := by
    rw [graph_insert_unfold o g n (fuel + 1) hre, insertLoop_step, hC]
  refine ⟨_, hins, rfl, fun p k => ?_, fun p k hnot => ?_⟩
  · rw [graph_seqAt_setChildren]
    by_cases hp : p = (o.impl_trait_ref n).def_id
    · subst hp
      rw [if_pos rfl, children_insert_err1 o _ n (skey o n) _ hC k]
      rfl
    · rw [if_neg hp]
  · rw [graph_seqAt_setChildren]
    by_cases hp : p = (o.impl_trait_ref n).def_id
    · subst hp
      rw [if_pos rfl, children_insert_err1 o _ n (skey o n) _ hC k]
      exact hnot
    · rw [if_neg hp]
      exact hnot

/-- Witness for the amended C1, at the concrete Scenario-3 input: inserting
blanket impl `2` against blanket sibling `1` (no earlier candidates). -/
theorem graph_insert_overlap_err_witness :
    ((gOne.childrenAt ((oConflict.impl_trait_ref 2).def_id)).candidates
        (skey oConflict 2) = [] ++ 1 :: []) ∧
    (∃ g', Graph.insert oConflict gOne 2 (4 + 1) = .err (overlap_error 1 mkOvl) g' ∧
      g'.parent = gOne.parent ∧ (∀ p k, g'.seqAt p k = gOne.seqAt p k) ∧
      (∀ p k, 2 ∉ gOne.seqAt p k → 2 ∉ g'.seqAt p k)) :=
  ⟨by decide,
    graph_insert_overlap_err oConflict gOne 2 4 [] [] 1 mkOvl (by decide) (by decide)
      (by intro x hx; cases hx) (by decide) (by decide) (by decide)⟩

/-! ### Claim C8 -/

/-- Claim C8: if the new impl's trait reference contains a type-resolution
error, `Graph::insert` performs no overlap computation (the conclusion holds
for every oracle and every pre-existing graph, so no oracle comparison can
influence it): it sets `parent[impl]` to the trait def-id, inserts the impl
blindly into the trait root's Children set, and returns `Ok(None)`. -/
theorem graph_insert_references_error (o : Oracle) (g : Graph) (n fuel : Nat)
    (hre : (o.impl_trait_ref n).references_error = true) :
    ∃ g', Graph.insert o g n fuel = .ok none g' ∧
      lookupA g'.parent n = some (o.impl_trait_ref n).def_id ∧
      g'.seqAt (o.impl_trait_ref n).def_id (skey o n) =
        g.seqAt (o.impl_trait_ref n).def_id (skey o n) ++ [n] ∧
      (∀ p, p ≠ (o.impl_trait_ref n).def_id → ∀ k, g'.seqAt p k = g.seqAt p k) ∧
      (∀ j, j ≠ n → lookupA g'.parent j = lookupA g.parent j) := by
  refine ⟨_, graph_insert_unfold_err_ref o g n fuel hre, ?_, ?_, ?_, ?_⟩
  · exact lookupA_insertA_self _ _ _
  · rw [graph_seqAt_updateChildren, if_pos rfl]
    rw [seqAt_insert_blindly, if_pos rfl]
    rfl
  · intro p hp k
    rw [graph_seqAt_updateChildren, if_neg hp]
    rfl
  · intro j hj
    exact lookupA_insertA_ne _ _ _ _ hj

/-- Witness for C8: a concrete erroneous-trait-ref insertion into `gOne`. -/
theorem graph_insert_references_error_witness :
    ∃ g', Graph.insert oErrRef gOne 2 0 = .ok none g' ∧
      lookupA g'.parent 2 = some (oErrRef.impl_trait_ref 2).def_id ∧
      g'.seqAt (oErrRef.impl_trait_ref 2).def_id (skey oErrRef 2) =
        gOne.seqAt (oErrRef.impl_trait_ref 2).def_id (skey oErrRef 2) ++ [2] ∧
      (∀ p, p ≠ (oErrRef.impl_trait_ref 2).def_id → ∀ k, g'.seqAt p k = gOne.seqAt p k) ∧
      (∀ j, j ≠ 2 → lookupA g'.parent j = lookupA gOne.parent j) :=
  graph_insert_references_error oErrRef gOne 2 0 (by decide)

/-! ### Claim C9 -/

/-- Claim C9: `record_impl_from_cstore(parent, child)` aborts with the fatal
internal-consistency bug (modelled as `none`) whenever `child` already has a
parent entry — in particular the second of two calls for the same child is
fatal; when `child` has no parent entry it sets `parent[child] = parent_id`
and blindly inserts `child` into `children[parent_id]`, with no overlap
checking (the conclusion holds for every oracle, so no overlap query can
influence it). -/
theorem record_impl_from_cstore_spec (o : Oracle) (g : Graph) (p child : Nat)
    (hnone : lookupA g.parent child = none) :
    (∀ g0 q, lookupA g0.parent child ≠ none →
      Graph.record_impl_from_cstore o g0 q child = none) ∧
    ∃ g', Graph.record_impl_from_cstore o g p child = some g' ∧
      lookupA g'.parent child = some p ∧
      g'.seqAt p (skey o child) = g.seqAt p (skey o child) ++ [child] ∧
      (∀ q2, Graph.record_impl_from_cstore o g' q2 child = none) := by
  have hfatal : ∀ g0 q, lookupA g0.parent child ≠ none →
      Graph.record_impl_from_cstore o g0 q child = none := by
    intro g0 q hq
    unfold Graph.record_impl_from_cstore
    cases hl : lookupA g0.parent child with
    | none => exact absurd hl hq
    | some w => rfl
  refine ⟨hfatal,
    ⟨⟨insertA g.parent child p,
      updateA g.children p Children.empty (·.insert_blindly o child)⟩, ?_, ?_, ?_, ?_⟩⟩
  · unfold Graph.record_impl_from_cstore
    rw [hnone]
  · exact lookupA_insertA_self _ _ _
  · rw [graph_seqAt_updateChildren, if_pos rfl]
    rw [seqAt_insert_blindly, if_pos rfl]
    rfl
  · intro q2
    apply hfatal
    rw [lookupA_insertA_self]
    intro hh
    cases hh

/-- Witness for C9: recording child `3` under parent `0` in `gOne` succeeds
once; any repetition for the same child is fatal. -/
theorem record_impl_from_cstore_spec_witness :
    (∀ g0 q, lookupA g0.parent 3 ≠ none →
      Graph.record_impl_from_cstore oConflict g0 q 3 = none) ∧
    ∃ g', Graph.record_impl_from_cstore oConflict gOne 0 3 = some g' ∧
      lookupA g'.parent 3 = some 0 ∧
      g'.seqAt 0 (skey oConflict 3) = gOne.seqAt 0 (skey oConflict 3) ++ [3] ∧
      (∀ q2, Graph.record_impl_from_cstore oConflict g' q2 3 = none) :=
  record_impl_from_cstore_spec oConflict gOne 0 3 (by decide)

/-! ### Claim C3 -/

/-- Claim C3: whenever the sibling scan reaches a candidate sibling `S` with
`specializes(new, S)` true and `specializes(S, new)` false — `siblingCheck`
returning `(le, ge) = (true, false)` — `Children::insert` stops scanning
immediately and returns `ShouldRecurseOn S`.  The remaining candidates `post`
are universally quantified, so no comparison with them can influence the
result; the new impl is not inserted into this Children set (all sequences
unchanged); and `Graph::insert` continues its loop one level deeper with the
parent cursor set to `S`. -/
theorem children_insert_should_recurse (o : Oracle) (c : Children) (n : Nat)
    (simpl : Option Nat) (pre post : List Nat) (S : Nat)
    (u : Option FutureCompatOverlapError)
    (hcand : c.candidates simpl = pre ++ S :: post)
    (hpre : ∀ x ∈ pre, benignStep o n x)
    (hS : siblingCheck o n S = .ok (true, false, u)) :
    Children.insert o c n simpl = (.ok (.ShouldRecurseOn S), c.scanned simpl) ∧
    (∀ k, (c.scanned simpl).seqAt k = c.seqAt k) ∧
    (∀ fuel P (g : Graph), g.childrenAt P = c →
      Graph.insertLoop o n simpl (fuel + 1) P g =
        Graph.insertLoop o n simpl fuel S
          ⟨g.parent, insertA g.children P (c.scanned simpl)⟩) := by
  obtain ⟨lint', acc', hps⟩ :=
    insertScan_append_benign o n pre (S :: post) none [] hpre
  have hscan : insertScan o n (pre ++ S :: post) none [] = .ok (.inl S) := by
    rw [hps]
    exact insertScan_recurse_at o n S post lint' acc' u hS
  have h1 : Children.insert o c n simpl = (.ok (.ShouldRecurseOn S), c.scanned simpl) := by
    rw [children_insert_eq, hcand, hscan]
  refine ⟨h1, fun k => seqAt_scanned c simpl k, fun fuel P g hg => ?_⟩
  rw [insertLoop_step, hg, h1]

/-- Witness for C3: the concrete Scenario-2 input (impl `2` of shape `5`
strictly specializes sibling `1`). -/
theorem children_insert_should_recurse_witness :
    ((gScen2.childrenAt 0).candidates (some 5) = [] ++ 1 :: []) ∧
    (Children.insert oScen2 (gScen2.childrenAt 0) 2 (some 5) =
        (.ok (.ShouldRecurseOn 1), (gScen2.childrenAt 0).scanned (some 5)) ∧
      (∀ k, ((gScen2.childrenAt 0).scanned (some 5)).seqAt k =
        (gScen2.childrenAt 0).seqAt k) ∧
      (∀ fuel P (g : Graph), g.childrenAt P = gScen2.childrenAt 0 →
        Graph.insertLoop oScen2 2 (some 5) (fuel + 1) P g =
          Graph.insertLoop oScen2 2 (some 5) fuel 1
            ⟨g.parent, insertA g.children P ((gScen2.childrenAt 0).scanned (some 5))⟩)) :=
  ⟨by decide,
    children_insert_should_recurse oScen2 (gScen2.childrenAt 0) 2 (some 5) [] [] 1 none
      (by decide) (by intro x hx; cases hx) (by decide)⟩

/-! ### Claim C6 -/

/-- Claim C6 counterexample: sibling `1` records an `Issue33140` lint; at
sibling `2` the comparison resolves with no direction and no policy
exemption, the `Fixed`-mode re-check reports nothing, the skip-leak-check
re-check does report an overlap, and no `Issue43355`-mode lint was ever
recorded — yet the final lint is still the `Issue33140` one, not a
`LeakCheck` lint: the code skips the leak-check pass whenever any lint at
all is pending, not only an `Issue43355` one. -/
theorem children_insert_lint_priority_cex :
    (Children.insert oLint cLint 5 none).1 =
      .ok (.BecameNewSibling (some ⟨overlap_error 1 mkOvl, .Issue33140⟩)) ∧
    oLint.impls_are_allowed_to_overlap 5 2 = none ∧
    oLint.overlapping .Issue43355 .No 2 5 = none ∧
    oLint.overlapping .Fixed .No 2 5 = none ∧
    oLint.overlapping .Fixed .Yes 2 5 = some mkOvl ∧
    ∀ l, (Children.insert oLint cLint 5 none).1 ≠
      .ok (.BecameNewSibling (some ⟨l, .LeakCheck⟩)) := by
  have h0 : (Children.insert oLint cLint 5 none).1 =
      .ok (.BecameNewSibling (some ⟨overlap_error 1 mkOvl, .Issue33140⟩)) := by decide
  refine ⟨h0, by decide, by decide, by decide, by decide, fun l h => ?_⟩
  rw [h0] at h
  simp at h

/-- Claim C6 (amended): when a candidate-sibling comparison resolves with no
specialization direction and the allow-overlap policy was not the reason, the
scan step updates the pending lint through the future-compatibility re-check:
the `IntercrateMode::Fixed` re-check's overlap is recorded as an `Issue43355`
lint, displacing any pending lint; the further re-check with the leak check
skipped runs only when no lint of any kind is pending, recording its overlap
as a `LeakCheck` lint — so a `LeakCheck` lint is only recorded if no
`Issue43355`-mode lint (indeed no lint at all) already was. -/
theorem children_insert_lint_priority (o : Oracle) (n S : Nat)
    (hallow : o.impls_are_allowed_to_overlap n S = none) :
    (∀ l0 ovl, o.overlapping .Fixed .No S n = some ovl →
      futureCompatCheck o n S l0 = some ⟨overlap_error S ovl, .Issue43355⟩) ∧
    (∀ ovl, o.overlapping .Fixed .No S n = none →
      o.overlapping .Fixed .Yes S n = some ovl →
      futureCompatCheck o n S none = some ⟨overlap_error S ovl, .LeakCheck⟩) ∧
    (∀ l0, o.overlapping .Fixed .No S n = none →
      futureCompatCheck o n S (some l0) = some l0) ∧
    (∀ rest lint acc u, siblingCheck o n S = .ok (false, false, u) →
      insertScan o n (S :: rest) lint acc =
        insertScan o n rest
          (futureCompatCheck o n S
            (match u with | some l => some l | none => lint)) acc) := by
  refine ⟨?_, ?_, ?_, ?_⟩
  · intro l0 ovl hov
    unfold futureCompatCheck
    rw [hallow]
    dsimp only
    rw [hov]
  · intro ovl h1 h2
    unfold futureCompatCheck
    rw [hallow]
    dsimp only
    rw [h1, h2]
  · intro l0 h1
    unfold futureCompatCheck
    rw [hallow]
    dsimp only
    rw [h1]
  · intro rest lint acc u hc
    rw [insertScan_cons, hc]
    simp

/-- Witness for the amended C6, applied at the concrete lint fixture
(new impl `5`, sibling `2`). -/
theorem children_insert_lint_priority_witness :
    oLint.impls_are_allowed_to_overlap 5 2 = none ∧
    ((∀ l0 ovl, oLint.overlapping .Fixed .No 2 5 = some ovl →
      futureCompatCheck oLint 5 2 l0 = some ⟨overlap_error 2 ovl, .Issue43355⟩) ∧
    (∀ ovl, oLint.overlapping .Fixed .No 2 5 = none →
      oLint.overlapping .Fixed .Yes 2 5 = some ovl →
      futureCompatCheck oLint 5 2 none = some ⟨overlap_error 2 ovl, .LeakCheck⟩) ∧
    (∀ l0, oLint.overlapping .Fixed .No 2 5 = none →
      futureCompatCheck oLint 5 2 (some l0) = some l0) ∧
    (∀ rest lint acc u, siblingCheck oLint 5 2 = .ok (false, false, u) →
      insertScan oLint 5 (2 :: rest) lint acc =
        insertScan oLint 5 rest
          (futureCompatCheck oLint 5 2
            (match u with | some l => some l | none => lint)) acc)) :=
  ⟨by decide, children_insert_lint_priority oLint 5 2 (by decide)⟩

/-! ### Claim C7 -/

theorem candidates_some_eq (c : Children) (st : Nat) :
    c.candidates (some st) = c.seqAt none ++ c.seqAt (some st) := rfl

theorem graph_insert_no_candidates (o : Oracle) (g : Graph) (n fuel : Nat)
    (hre : (o.impl_trait_ref n).references_error = false)
    (hcand : (g.childrenAt (o.impl_trait_ref n).def_id).candidates (skey o n) = []) :
    Graph.insert o g n (fuel + 1) =
      .ok none
        ⟨insertA g.parent n (o.impl_trait_ref n).def_id,
          insertA g.children (o.impl_trait_ref n).def_id
            (((g.childrenAt (o.impl_trait_ref n).def_id).scanned
              (skey o n)).insert_blindly o n)⟩ := by
  have hC : Children.insert o (g.childrenAt (o.impl_trait_ref n).def_id) n (skey o n) =
      (.ok (.BecameNewSibling none),
        ((g.childrenAt (o.impl_trait_ref n).def_id).scanned (skey o n)).insert_blindly o n) := by
    rw [children_insert_eq, hcand]
    rfl
  rw [graph_insert_unfold o g n (fuel + 1) hre, insertLoop_step, hC]

/-- Claim C7: a new impl with a shape key is only compared against blanket
impls plus the nonblanket bucket of exactly that shape key (first conjunct:
the `filtered` enumeration).  Inserting two impls whose receiver types
simplify to distinct shape keys into an empty forest (no blanket impls
present) succeeds for *every* oracle — `specializes`, `overlapping` and
`impls_are_allowed_to_overlap` are completely unconstrained here, so no
overlap-oracle comparison between the two impls can influence the result —
and both end up as siblings under the trait root. -/
theorem shape_filtering_no_comparison (o : Oracle) (I1 I2 T s1 s2 f1 f2 : Nat)
    (ht1 : (o.impl_trait_ref I1).def_id = T) (ht2 : (o.impl_trait_ref I2).def_id = T)
    (hs1 : skey o I1 = some s1) (hs2 : skey o I2 = some s2) (hne : s1 ≠ s2)
    (he1 : (o.impl_trait_ref I1).references_error = false)
    (he2 : (o.impl_trait_ref I2).references_error = false) :
    (∀ (c : Children) (st : Nat), (c.filtered st).1 =
      c.blanket_impls ++ (lookupA c.nonblanket_impls st).getD []) ∧
    ∃ g1 g2, Graph.insert o Graph.emptyG I1 (f1 + 1) = .ok none g1 ∧
      Graph.insert o g1 I2 (f2 + 1) = .ok none g2 ∧
      lookupA g2.parent I1 = some T ∧ lookupA g2.parent I2 = some T ∧
      g2.seqAt T (some s1) = [I1] ∧ g2.seqAt T (some s2) = [I2] := by
  subst ht1
  have hI12 : I1 ≠ I2 := by
    intro h
    rw [h, hs2] at hs1
    exact hne (Option.some.inj hs1).symm
  refine ⟨fun c st => (filtered_fst c st).trans rfl, ?_⟩
  have hcand1 : (Graph.emptyG.childrenAt (o.impl_trait_ref I1).def_id).candidates
      (skey o I1) = [] := by
    rw [hs1]
    rfl
  have hins1 := graph_insert_no_candidates o Graph.emptyG I1 f1 he1 hcand1
  set c1 := ((Graph.emptyG.childrenAt (o.impl_trait_ref I1).def_id).scanned
    (skey o I1)).insert_blindly o I1 with hc1
  set g1 : Graph := ⟨insertA Graph.emptyG.parent I1 (o.impl_trait_ref I1).def_id,
    insertA Graph.emptyG.children (o.impl_trait_ref I1).def_id c1⟩ with hg1
  have hc1none : c1.seqAt none = [] := by
    rw [hc1, seqAt_insert_blindly, hs1, seqAt_scanned,
      if_neg (show ¬((none : Option Nat) = some s1) from by simp)]
    rfl
  have hc1s1 : c1.seqAt (some s1) = [I1] := by
    rw [hc1, seqAt_insert_blindly, hs1, seqAt_scanned, if_pos rfl]
    rfl
  have hc1s2 : c1.seqAt (some s2) = [] := by
    rw [hc1, seqAt_insert_blindly, hs1, seqAt_scanned,
      if_neg (show ¬((some s2 : Option Nat) = some s1) from by
        simp
        exact fun hh => hne hh.symm)]
    rfl
  have hat1 : g1.childrenAt (o.impl_trait_ref I1).def_id = c1 := by
    rw [hg1]
    unfold Graph.childrenAt
    simp [lookupA_insertA_self]
  have hcand2 : (g1.childrenAt (o.impl_trait_ref I2).def_id).candidates (skey o I2) = [] := by
    rw [ht2, hat1, hs2, candidates_some_eq, hc1none, hc1s2]
    rfl
  have hins2 := graph_insert_no_candidates o g1 I2 f2 he2 hcand2
  rw [ht2] at hins2
  set c2 := ((g1.childrenAt (o.impl_trait_ref I2).def_id).scanned
    (skey o I2)).insert_blindly o I2 with hc2
  have hc2' : c2 = ((g1.childrenAt (o.impl_trait_ref I1).def_id).scanned
      (skey o I2)).insert_blindly o I2 := by
    rw [hc2, ht2]
  refine ⟨g1, ⟨insertA g1.parent I2 (o.impl_trait_ref I1).def_id,
    insertA g1.children (o.impl_trait_ref I1).def_id c2⟩, hins1, ?_, ?_, ?_, ?_, ?_⟩
  · rw [hins2]
    rw [hc2']
  · rw [hg1]
    dsimp only
    rw [lookupA_insertA_ne _ _ _ _ hI12, lookupA_insertA_self]
  · exact lookupA_insertA_self _ _ _
  · rw [show (⟨insertA g1.parent I2 (o.impl_trait_ref I1).def_id,
        insertA g1.children (o.impl_trait_ref I1).def_id c2⟩ : Graph).seqAt
        ((o.impl_trait_ref I1).def_id) (some s1) = c2.seqAt (some s1) from by
      rw [graph_seqAt_setChildren, if_pos rfl]]
    rw [hc2', hat1, seqAt_insert_blindly, hs2, seqAt_scanned, hc1s1]
    have : ¬((some s1 : Option Nat) = some s2) := by simpa using hne
    simp [this]
  · rw [show (⟨insertA g1.parent I2 (o.impl_trait_ref I1).def_id,
        insertA g1.children (o.impl_trait_ref I1).def_id c2⟩ : Graph).seqAt
        ((o.impl_trait_ref I1).def_id) (some s2) = c2.seqAt (some s2) from by
      rw [graph_seqAt_setChildren, if_pos rfl]]
    rw [hc2', hat1, seqAt_insert_blindly, hs2, seqAt_scanned, hc1s2]
    simp

/-- Witness for C7: the concrete Scenario-1 input under the adversarial
oracle `oShapes2` (always-overlap, always-specialize). -/
theorem shape_filtering_no_comparison_witness :
    ((∀ (c : Children) (st : Nat), (c.filtered st).1 =
      c.blanket_impls ++ (lookupA c.nonblanket_impls st).getD []) ∧
    ∃ g1 g2, Graph.insert oShapes2 Graph.emptyG 1 (0 + 1) = .ok none g1 ∧
      Graph.insert oShapes2 g1 2 (0 + 1) = .ok none g2 ∧
      lookupA g2.parent 1 = some 0 ∧ lookupA g2.parent 2 = some 0 ∧
      g2.seqAt 0 (some 10) = [1] ∧ g2.seqAt 0 (some 20) = [2]) :=
  shape_filtering_no_comparison oShapes2 1 2 0 10 20 0 0 (by decide) (by decide)
    (by decide) (by decide) (by decide) (by decide) (by decide)

/-! ### Surgery characterization (Claim C2) -/

theorem lookupA_foldl_insertA (ds : List Nat) (v : Nat) :
    ∀ (pm : List (Nat × Nat)) (j : Nat),
      lookupA (ds.foldl (fun pm d => insertA pm d v) pm) j =
        if j ∈ ds then some v else lookupA pm j := by
  induction ds with
  | nil => simp
  | cons d rest ih =>
    intro pm j
    have hstep : (d :: rest).foldl (fun pm dd => insertA pm dd v) pm =
        rest.foldl (fun pm dd => insertA pm dd v) (insertA pm d v) := rfl
    rw [hstep, ih]
    by_cases hj : j ∈ rest
    · simp [hj]
    · by_cases hjd : j = d
      · subst hjd
        simp [hj, lookupA_insertA_self]
      · simp [hj, hjd, lookupA_insertA_ne _ _ _ _ hjd]

theorem surgery_eq (o : Oracle) (n P : Nat) (ds : List Nat) (g1 : Graph) :
    Graph.surgery o n P ds g1 =
      ⟨insertA (insertA (ds.foldl (fun pm d => insertA pm d n) g1.parent) n P) n P,
        insertA
          (insertA g1.children P
            ((ds.foldl (fun cc d => cc.remove_existing o d)
              ((lookupA g1.children P).getD Children.empty)).insert_blindly o n))
          n
          (ds.foldl (fun cc d => cc.insert_blindly o d)
            ((lookupA
              (insertA g1.children P
                ((ds.foldl (fun cc d => cc.remove_existing o d)
                  ((lookupA g1.children P).getD Children.empty)).insert_blindly o n))
              n).getD Children.empty))⟩ := rfl

theorem surgery_seqAt (o : Oracle) (n P : Nat) (ds : List Nat) (g1 : Graph)
    (hPn : P ≠ n) (q : Nat) (k : Option Nat) :
    (Graph.surgery o n P ds g1).seqAt q k =
      if q = n then g1.seqAt n k ++ ds.filter (fun d => skey o d = k)
      else if q = P then
        removeEach (ds.filter (fun d => skey o d = k)) (g1.seqAt P k) ++
          (if k = skey o n then [n] else [])
      else g1.seqAt q k := by
  rw [surgery_eq, graph_seqAt_setChildren]
  by_cases hq : q = n
  · subst hq
    rw [if_pos rfl, if_pos rfl, seqAt_foldl_insert_blindly,
      lookupA_insertA_ne _ _ _ _ (Ne.symm hPn)]
    rfl
  · rw [if_neg hq, if_neg hq, graph_seqAt_setChildren]
    by_cases hp : q = P
    · subst hp
      rw [if_pos rfl, if_pos rfl, seqAt_insert_blindly, seqAt_foldl_remove]
      rfl
    · rw [if_neg hp, if_neg hp]
      rfl

theorem surgery_parent (o : Oracle) (n P : Nat) (ds : List Nat) (g1 : Graph) :
    (Graph.surgery o n P ds g1).parent =
      insertA (insertA (ds.foldl (fun pm d => insertA pm d n) g1.parent) n P) n P := rfl

/-! ### Claim C2 -/

/-- Claim C2: when `Children::insert` returns `ReplaceChildren(ds)` — `ds`
being every scanned candidate classified `specializes(S, new) && !specializes(new, S)`,
possibly more than one (last conjunct: `ds` is the `geStep` filter of the
candidate list) — `Graph::insert` performs tree surgery after which every
displaced id is gone from the cursor node's Children set and present in the
new impl's Children set (in the bucket of its own shape key), each displaced
id's parent pointer is the new impl, and the new impl's parent pointer is the
cursor node, next to which it now sits. -/
theorem graph_insert_replace_children (o : Oracle) (g : Graph) (n fuel P : Nat)
    (ds : List Nat)
    (hres : (Children.insert o (g.childrenAt P) n (skey o n)).1 = .ok (.ReplaceChildren ds))
    (hnodup : ((g.childrenAt P).candidates (skey o n)).Nodup)
    (hnds : n ∉ ds)
    (hPn : P ≠ n)
    (honly : ∀ d ∈ ds, ∀ k, d ∈ g.seqAt P k → k = skey o d)
    (hone : ∀ d ∈ ds, (g.seqAt P (skey o d)).count d ≤ 1) :
    ∃ g', Graph.insertLoop o n (skey o n) (fuel + 1) P g = .ok none g' ∧
      ds = ((g.childrenAt P).candidates (skey o n)).filter (geStep o n) ∧
      lookupA g'.parent n = some P ∧
      (∀ d ∈ ds, lookupA g'.parent d = some n) ∧
      (∀ d ∈ ds, ∀ k, d ∉ g'.seqAt P k) ∧
      (∀ d ∈ ds, d ∈ g'.seqAt n (skey o d)) ∧
      n ∈ g'.seqAt P (skey o n) := by
  obtain ⟨hds_eq, hds_ne, hseq2⟩ := children_insert_replace1 o (g.childrenAt P) n (skey o n) ds hres
  have hds_nodup : ds.Nodup := hds_eq ▸ hnodup.filter _
  set g1 : Graph :=
    ⟨g.parent, insertA g.children P (Children.insert o (g.childrenAt P) n (skey o n)).2⟩
    with hg1
  have hloop : Graph.insertLoop o n (skey o n) (fuel + 1) P g =
      .ok none (Graph.surgery o n P ds g1) := by
    rw [insertLoop_step, hres]
  have hg1seq : ∀ q k, g1.seqAt q k = g.seqAt q k := by
    intro q k
    rw [hg1, graph_seqAt_setChildren]
    by_cases hq : q = P
    · subst hq
      rw [if_pos rfl, hseq2 k]
      rfl
    · rw [if_neg hq]
  have hsseq : ∀ q k, (Graph.surgery o n P ds g1).seqAt q k =
      if q = n then g.seqAt n k ++ ds.filter (fun d => skey o d = k)
      else if q = P then
        removeEach (ds.filter (fun d => skey o d = k)) (g.seqAt P k) ++
          (if k = skey o n then [n] else [])
      else g.seqAt q k := by
    intro q k
    rw [surgery_seqAt o n P ds g1 hPn, hg1seq, hg1seq, hg1seq]
  refine ⟨Graph.surgery o n P ds g1, hloop, hds_eq, ?_, ?_, ?_, ?_, ?_⟩
  · rw [surgery_parent]
    exact lookupA_insertA_self _ _ _
  · intro d hd
    have hdn : d ≠ n := fun hh => hnds (hh ▸ hd)
    rw [surgery_parent, lookupA_insertA_ne _ _ _ _ hdn, lookupA_insertA_ne _ _ _ _ hdn,
      lookupA_foldl_insertA]
    rw [if_pos hd]
  · intro d hd k hmem
    have hdn : d ≠ n := fun hh => hnds (hh ▸ hd)
    rw [hsseq P k, if_neg hPn, if_pos rfl] at hmem
    rcases List.mem_append.mp hmem with hm | hm
    · by_cases hk : k = skey o d
      · subst hk
        have hfil : d ∈ ds.filter (fun d' => skey o d' = skey o d) :=
          List.mem_filter.mpr ⟨hd, by simp⟩
        have hcnt : (removeEach (ds.filter (fun d' => skey o d' = skey o d))
            (g.seqAt P (skey o d))).count d = 0 :=
          count_removeEach_mem _ _ _ hfil (hone d hd)
        exact absurd hm (List.count_eq_zero.mp hcnt)
      · have hdnot : d ∉ g.seqAt P k := fun hin => hk (honly d hd k hin)
        exact absurd hm (not_mem_removeEach _ _ _ hdnot)
    · by_cases hkn : k = skey o n
      · rw [if_pos hkn] at hm
        exact hdn (List.mem_singleton.mp hm)
      · rw [if_neg hkn] at hm
        cases hm
  · intro d hd
    rw [hsseq n (skey o d), if_pos rfl]
    exact List.mem_append.mpr (.inr (List.mem_filter.mpr ⟨hd, by simp⟩))
  · rw [hsseq P (skey o n), if_neg hPn, if_pos rfl, if_pos rfl]
    exact List.mem_append.mpr (.inr (List.mem_singleton.mpr rfl))

/-- Witness for C2: the concrete Scenario-4 input — inserting `3`, which both
blanket siblings `1` and `2` strictly specialize, under trait root `0`; the
surgery leaves `3` as the only child of `0`, with `1` and `2` re-parented
under `3`. -/
theorem graph_insert_replace_children_witness :
    (∃ g', Graph.insertLoop oScen4 3 (skey oScen4 3) (0 + 1) 0 gScen4 = .ok none g' ∧
      [1, 2] = ((gScen4.childrenAt 0).candidates (skey oScen4 3)).filter (geStep oScen4 3) ∧
      lookupA g'.parent 3 = some 0 ∧
      (∀ d ∈ [1, 2], lookupA g'.parent d = some 3) ∧
      (∀ d ∈ [1, 2], ∀ k, d ∉ g'.seqAt 0 k) ∧
      (∀ d ∈ [1, 2], d ∈ g'.seqAt 3 (skey oScen4 d)) ∧
      3 ∈ g'.seqAt 0 (skey oScen4 3)) ∧
    (Graph.insert oScen4 gScen4 3 1).graph.seqAt 0 none = [3] ∧
    lookupA (Graph.insert oScen4 gScen4 3 1).graph.parent 1 = some 3 ∧
    lookupA (Graph.insert oScen4 gScen4 3 1).graph.parent 2 = some 3 ∧
    lookupA (Graph.insert oScen4 gScen4 3 1).graph.parent 3 = some 0 :=
  ⟨graph_insert_replace_children oScen4 gScen4 3 0 0 [1, 2] (by decide) (by decide)
    (by decide) (by decide)
    (by
      intro d hd k hk
      cases k with
      | none =>
        have : skey oScen4 d = none := rfl
        rw [this]
      | some st => exact absurd hk (List.not_mem_nil d))
    (by decide),
    by decide, by decide, by decide, by decide⟩

/-! ### Key-uniqueness and candidate-list lemmas (towards C4/C5) -/

theorem lookupA_none_not_mem {α : Type} (l : List (Nat × α)) (k : Nat)
    (h : lookupA l k = none) : k ∉ l.map Prod.fst := by
  induction l with
  | nil => simp
  | cons hd tl ih =>
    obtain ⟨k0, v0⟩ := hd
    by_cases hk : k0 = k
    · subst hk
      simp [lookupA] at h
    · simp only [lookupA, hk, if_neg, if_false] at h
      simp only [List.map_cons, List.mem_cons]
      rintro (h1 | h1)
      · exact hk h1.symm
      · exact ih h h1

theorem mem_keys_insertA {α : Type} (l : List (Nat × α)) (k j : Nat) (v : α) :
    j ∈ (insertA l k v).map Prod.fst ↔ j ∈ l.map Prod.fst ∨ j = k := by
  induction l with
  | nil => simp [insertA]
  | cons hd tl ih =>
    obtain ⟨k0, v0⟩ := hd
    by_cases hk : k0 = k
    · subst hk
      simp [insertA]
      tauto
    · simp only [insertA, hk, if_neg, if_false, List.map_cons, List.mem_cons, ih]
      tauto

theorem keys_nodup_insertA {α : Type} (l : List (Nat × α)) (k : Nat) (v : α)
    (h : (l.map Prod.fst).Nodup) : ((insertA l k v).map Prod.fst).Nodup := by
  induction l with
  | nil => simp [insertA]
  | cons hd tl ih =>
    obtain ⟨k0, v0⟩ := hd
    simp only [List.map_cons, List.nodup_cons] at h
    by_cases hk : k0 = k
    · subst hk
      have hins : insertA ((k0, v0) :: tl) k0 v = (k0, v) :: tl := by
        simp [insertA]
      rw [hins]
      simp only [List.map_cons, List.nodup_cons]
      exact h
    · simp only [insertA, hk, if_neg, if_false, List.map_cons, List.nodup_cons]
      refine ⟨?_, ih h.2⟩
      rw [mem_keys_insertA]
      rintro (h1 | h1)
      · exact h.1 h1
      · exact hk h1

theorem keys_nodup_updateA {α : Type} (l : List (Nat × α)) (k : Nat) (d : α)
    (f : α → α) (h : (l.map Prod.fst).Nodup) :
    ((updateA l k d f).map Prod.fst).Nodup := by
  unfold updateA
  cases hl : lookupA l k with
  | some v => exact keys_nodup_insertA l k (f v) h
  | none =>
    rw [List.map_append]
    simp only [List.map_cons, List.map_nil]
    rw [List.nodup_append]
    refine ⟨h, List.nodup_singleton _, ?_⟩
    intro a ha hb
    simp only [List.mem_singleton] at hb
    subst hb
    exact lookupA_none_not_mem l a hl ha

theorem lookupA_of_mem_keys_nodup {α : Type} (l : List (Nat × α)) (k : Nat) (v : α)
    (hnd : (l.map Prod.fst).Nodup) (hm : (k, v) ∈ l) : lookupA l k = some v := by
  induction l with
  | nil => simp at hm
  | cons hd tl ih =>
    obtain ⟨k0, v0⟩ := hd
    simp only [List.map_cons, List.nodup_cons] at hnd
    rcases List.mem_cons.mp hm with h1 | h1
    · cases h1
      simp [lookupA]
    · have hk : k0 ≠ k := by
        intro hh
        subst hh
        exact hnd.1 (List.mem_map.mpr ⟨(k0, v), h1, rfl⟩)
      simp only [lookupA, hk, if_neg, if_false]
      exact ih hnd.2 h1

theorem count_flatMap_zero (nb : List (Nat × List Nat)) (x : Nat)
    (h : ∀ e ∈ nb, x ∉ e.2) : (nb.flatMap (·.2)).count x = 0 := by
  induction nb with
  | nil => simp
  | cons e rest ih =>
    have hstep : ((e :: rest).flatMap (·.2)) = e.2 ++ rest.flatMap (·.2) := rfl
    rw [hstep, List.count_append,
      List.count_eq_zero.mpr (h e (List.mem_cons_self _ _)),
      ih (fun e' he' => h e' (List.mem_cons_of_mem _ he'))]

theorem count_flatMap_single (nb : List (Nat × List Nat)) (x s0 : Nat)
    (hnd : (nb.map Prod.fst).Nodup)
    (hloc : ∀ st v, (st, v) ∈ nb → x ∈ v → st = s0) :
    (nb.flatMap (·.2)).count x = ((lookupA nb s0).getD []).count x := by
  induction nb with
  | nil => simp [lookupA]
  | cons e rest ih =>
    obtain ⟨st0, v0⟩ := e
    simp only [List.map_cons, List.nodup_cons] at hnd
    have hstep : (((st0, v0) :: rest).flatMap (·.2)) = v0 ++ rest.flatMap (·.2) := rfl
    rw [hstep, List.count_append]
    by_cases h0 : st0 = s0
    · subst h0
      have hrest : ∀ e ∈ rest, x ∉ e.2 := by
        intro e he hx
        have := hloc e.1 e.2 (List.mem_cons_of_mem _ (by simpa using he)) hx
        exact hnd.1 (this ▸ List.mem_map.mpr ⟨e, he, rfl⟩)
      rw [count_flatMap_zero rest x hrest]
      simp [lookupA]
    · have hv0 : x ∉ v0 := fun hx =>
        h0 (hloc st0 v0 (List.mem_cons_self _ _) hx)
      rw [List.count_eq_zero.mpr hv0]
      simp only [lookupA, h0, if_neg, if_false, Nat.zero_add]
      exact ih hnd.2 (fun st v hm hx => hloc st v (List.mem_cons_of_mem _ hm) hx)

theorem mem_candidates_seqAt (c : Children) (simpl : Option Nat) (x : Nat)
    (hnd : (c.nonblanket_impls.map Prod.fst).Nodup)
    (hm : x ∈ c.candidates simpl) : ∃ k, x ∈ c.seqAt k := by
  cases simpl with
  | some st =>
    rcases List.mem_append.mp hm with h | h
    · exact ⟨none, h⟩
    · exact ⟨some st, h⟩
  | none =>
    rcases List.mem_append.mp hm with h | h
    · exact ⟨none, h⟩
    · obtain ⟨e, he, hx⟩ := List.mem_flatMap.mp h
      refine ⟨some e.1, ?_⟩
      show x ∈ (lookupA c.nonblanket_impls e.1).getD []
      rw [lookupA_of_mem_keys_nodup _ _ e.2 hnd (by simpa using he)]
      exact hx

/-- The `Children` set stored for a node always has duplicate-free bucket
keys in a `wellKeyed` graph. -/
theorem wellKeyed_childrenAt (g : Graph) (hwk : wellKeyed g) (P : Nat) :
    ((g.childrenAt P).nonblanket_impls.map Prod.fst).Nodup := by
  unfold Graph.childrenAt
  cases hl : lookupA g.children P with
  | some c => exact hwk P c hl
  | none => simp [Children.empty]

theorem structuralInv_congr (o : Oracle) (g g' : Graph)
    (hp : g'.parent = g.parent) (hs : ∀ q k, g'.seqAt q k = g.seqAt q k)
    (h : structuralInv o g) : structuralInv o g' := by
  obtain ⟨h1, h2⟩ := h
  constructor
  · intro i p hip
    rw [hp] at hip
    rw [hs]
    exact h1 i p hip
  · intro i p k hm
    rw [hs] at hm
    rw [hp]
    exact h2 i p k hm

theorem mem_removeEach_subset (rs l : List Nat) (x : Nat)
    (h : x ∈ removeEach rs l) : x ∈ l := by
  by_contra hx
  exact not_mem_removeEach rs l x hx h

/-- Candidate lists are duplicate-free in a well-formed graph: every
candidate sits in exactly one sequence of the node, exactly once. -/
theorem candidates_nodup (o : Oracle) (g : Graph) (P : Nat)
    (hinv : structuralInv o g) (hwk : wellKeyed g) (simpl : Option Nat) :
    ((g.childrenAt P).candidates simpl).Nodup := by
  obtain ⟨h1, h2⟩ := hinv
  have hkey := wellKeyed_childrenAt g hwk P
  rw [List.nodup_iff_count_le_one]
  intro a
  have hblank : (g.seqAt P none).count a ≤ 1 := by
    by_cases hm : a ∈ g.seqAt P none
    · obtain ⟨hpar, hk⟩ := h2 a P none hm
      have := h1 a P hpar
      rw [← hk] at this
      omega
    · rw [List.count_eq_zero.mpr hm]
      omega
  have hbucket : ∀ st, (g.seqAt P (some st)).count a ≤ 1 := by
    intro st
    by_cases hm : a ∈ g.seqAt P (some st)
    · obtain ⟨hpar, hk⟩ := h2 a P (some st) hm
      have := h1 a P hpar
      rw [← hk] at this
      omega
    · rw [List.count_eq_zero.mpr hm]
      omega
  have hdisj : ∀ st, a ∈ g.seqAt P none → a ∈ g.seqAt P (some st) → False := by
    intro st hn hs
    have hk1 := (h2 a P none hn).2
    have hk2 := (h2 a P (some st) hs).2
    rw [← hk1] at hk2
    cases hk2
  cases simpl with
  | some st =>
    show ((g.seqAt P none ++ g.seqAt P (some st)).count a) ≤ 1
    rw [List.count_append]
    by_cases hm : a ∈ g.seqAt P none
    · have h0 : (g.seqAt P (some st)).count a = 0 :=
        List.count_eq_zero.mpr (fun hs => hdisj st hm hs)
      rw [h0]
      omega
    · rw [List.count_eq_zero.mpr hm]
      have := hbucket st
      omega
  | none =>
    show ((g.seqAt P none ++
      (g.childrenAt P).nonblanket_impls.flatMap (·.2)).count a) ≤ 1
    rw [List.count_append]
    have hbucket_mem : ∀ st v, (st, v) ∈ (g.childrenAt P).nonblanket_impls →
        a ∈ v → a ∈ g.seqAt P (some st) := by
      intro st v hm ha
      show a ∈ (lookupA (g.childrenAt P).nonblanket_impls st).getD []
      rw [lookupA_of_mem_keys_nodup _ _ v hkey hm]
      exact ha
    cases hsk : skey o a with
    | none =>
      have hflat : ((g.childrenAt P).nonblanket_impls.flatMap (·.2)).count a = 0 := by
        apply count_flatMap_zero
        intro e he ha
        have hmem := hbucket_mem e.1 e.2 (by simpa using he) ha
        have := (h2 a P (some e.1) hmem).2
        rw [hsk] at this
        cases this
      rw [hflat]
      omega
    | some s0 =>
      have hflat : ((g.childrenAt P).nonblanket_impls.flatMap (·.2)).count a =
          ((lookupA (g.childrenAt P).nonblanket_impls s0).getD []).count a := by
        apply count_flatMap_single _ _ _ hkey
        intro st v hm ha
        have hmem := hbucket_mem st v hm ha
        have := (h2 a P (some st) hmem).2
        rw [hsk] at this
        cases this
        rfl
      rw [hflat]
      have hb := hbucket s0
      by_cases hm : a ∈ g.seqAt P none
      · have h0 : (g.seqAt P (some s0)).count a = 0 :=
          List.count_eq_zero.mpr (fun hs => hdisj s0 hm hs)
        have : ((lookupA (g.childrenAt P).nonblanket_impls s0).getD []).count a =
            (g.seqAt P (some s0)).count a := rfl
        rw [this, h0]
        omega
      · rw [List.count_eq_zero.mpr hm]
        have : ((lookupA (g.childrenAt P).nonblanket_impls s0).getD []).count a =
            (g.seqAt P (some s0)).count a := rfl
        rw [this]
        omega

theorem keys_nodup_insert_blindly (o : Oracle) (c : Children) (i : Nat)
    (h : (c.nonblanket_impls.map Prod.fst).Nodup) :
    (((c.insert_blindly o i).nonblanket_impls).map Prod.fst).Nodup := by
  unfold Children.insert_blindly
  cases skey o i with
  | some st => exact keys_nodup_updateA _ _ _ _ h
  | none => exact h

theorem keys_nodup_remove_existing (o : Oracle) (c : Children) (i : Nat)
    (h : (c.nonblanket_impls.map Prod.fst).Nodup) :
    (((c.remove_existing o i).nonblanket_impls).map Prod.fst).Nodup := by
  unfold Children.remove_existing
  cases skey o i with
  | some st => exact keys_nodup_updateA _ _ _ _ h
  | none => exact h

theorem keys_nodup_scanned (c : Children) (simpl : Option Nat)
    (h : (c.nonblanket_impls.map Prod.fst).Nodup) :
    (((c.scanned simpl).nonblanket_impls).map Prod.fst).Nodup := by
  cases simpl with
  | none => exact h
  | some st => exact keys_nodup_updateA _ _ _ _ h

theorem keys_nodup_children_insert (o : Oracle) (c : Children) (n : Nat)
    (simpl : Option Nat) (h : (c.nonblanket_impls.map Prod.fst).Nodup) :
    (((Children.insert o c n simpl).2.nonblanket_impls).map Prod.fst).Nodup := by
  rw [children_insert_eq]
  cases insertScan o n (c.candidates simpl) none [] with
  | error e => exact keys_nodup_scanned c simpl h
  | ok v =>
    cases v with
    | inl s => exact keys_nodup_scanned c simpl h
    | inr p =>
      obtain ⟨l, r⟩ := p
      by_cases hr : r.isEmpty
      · simp only [hr, if_pos]
        exact keys_nodup_insert_blindly o _ n (keys_nodup_scanned c simpl h)
      · simp only [hr, Bool.false_eq_true, if_false]
        exact keys_nodup_scanned c simpl h

theorem keys_nodup_foldl_remove (o : Oracle) (ds : List Nat) :
    ∀ (c : Children), (c.nonblanket_impls.map Prod.fst).Nodup →
      (((ds.foldl (fun cc d => cc.remove_existing o d) c).nonblanket_impls).map
        Prod.fst).Nodup := by
  induction ds with
  | nil => exact fun c h => h
  | cons d rest ih =>
    intro c h
    exact ih _ (keys_nodup_remove_existing o c d h)

theorem keys_nodup_foldl_insert_blindly (o : Oracle) (ds : List Nat) :
    ∀ (c : Children), (c.nonblanket_impls.map Prod.fst).Nodup →
      (((ds.foldl (fun cc d => cc.insert_blindly o d) c).nonblanket_impls).map
        Prod.fst).Nodup := by
  induction ds with
  | nil => exact fun c h => h
  | cons d rest ih =>
    intro c h
    exact ih _ (keys_nodup_insert_blindly o c d h)

theorem wellKeyed_setChildren (pm : List (Nat × Nat)) (ch : List (Nat × Children))
    (P : Nat) (c : Children)
    (h : ∀ q c0, lookupA ch q = some c0 → (c0.nonblanket_impls.map Prod.fst).Nodup)
    (hc : (c.nonblanket_impls.map Prod.fst).Nodup) :
    wellKeyed ⟨pm, insertA ch P c⟩ := by
  intro q c0 hl
  by_cases hq : q = P
  · subst hq
    rw [lookupA_insertA_self] at hl
    cases hl
    exact hc
  · rw [lookupA_insertA_ne _ _ _ _ hq] at hl
    exact h q c0 hl

/-! ### Invariant preservation for the two attachment shapes -/

theorem structuralInv_attach (o : Oracle) (g g' : Graph) (n Q : Nat)
    (hinv : structuralInv o g)
    (hfresh : lookupA g.parent n = none)
    (hp : g'.parent = insertA g.parent n Q)
    (hs : ∀ q k, g'.seqAt q k =
      if q = Q then g.seqAt Q k ++ (if k = skey o n then [n] else [])
      else g.seqAt q k) :
    structuralInv o g' := by
  obtain ⟨h1, h2⟩ := hinv
  have hnomem : ∀ q k, n ∉ g.seqAt q k := by
    intro q k hm
    have := (h2 n q k hm).1
    rw [hfresh] at this
    cases this
  constructor
  · intro i p hip
    rw [hp] at hip
    by_cases hin : i = n
    · have hpQ : p = Q := by
        rw [hin, lookupA_insertA_self] at hip
        exact (Option.some.inj hip).symm
      rw [hin, hpQ, hs Q (skey o n), if_pos rfl, if_pos rfl, List.count_append,
        List.count_eq_zero.mpr (hnomem Q (skey o n))]
      simp
    · rw [lookupA_insertA_ne _ _ _ _ hin] at hip
      have hc := h1 i p hip
      rw [hs p (skey o i)]
      by_cases hpQ : p = Q
      · subst hpQ
        rw [if_pos rfl, List.count_append, hc]
        by_cases hk : skey o i = skey o n
        · rw [if_pos hk, List.count_eq_zero.mpr
            (fun hm => hin (List.mem_singleton.mp hm))]
        · rw [if_neg hk]
          simp
      · rw [if_neg hpQ]
        exact hc
  · intro i p k hm
    rw [hs p k] at hm
    by_cases hpQ : p = Q
    · rw [hpQ] at hm ⊢
      rw [if_pos rfl] at hm
      rcases List.mem_append.mp hm with hmm | hmm
      · obtain ⟨hpar, hk⟩ := h2 i Q k hmm
        have hin : i ≠ n := by
          intro hh
          subst hh
          rw [hfresh] at hpar
          cases hpar
        rw [hp, lookupA_insertA_ne _ _ _ _ hin]
        exact ⟨hpar, hk⟩
      · by_cases hk : k = skey o n
        · rw [if_pos hk] at hmm
          have hin : i = n := List.mem_singleton.mp hmm
          subst hin
          rw [hp, lookupA_insertA_self]
          exact ⟨rfl, hk⟩
        · rw [if_neg hk] at hmm
          cases hmm
    · rw [if_neg hpQ] at hm
      obtain ⟨hpar, hk⟩ := h2 i p k hm
      have hin : i ≠ n := by
        intro hh
        subst hh
        rw [hfresh] at hpar
        cases hpar
      rw [hp, lookupA_insertA_ne _ _ _ _ hin]
      exact ⟨hpar, hk⟩

theorem rankOk_attach (g g' : Graph) (n Q : Nat) (r : Nat → Nat)
    (hr : rankOk g r)
    (hQn : Q ≠ n)
    (hnoval : ∀ j, lookupA g.parent j ≠ some n)
    (hp : g'.parent = insertA g.parent n Q) :
    rankOk g' (fun i => if i = n then 2 * r Q + 1 else 2 * r i) := by
  intro i p hip
  rw [hp] at hip
  by_cases hin : i = n
  · have hpQ : p = Q := by
      rw [hin, lookupA_insertA_self] at hip
      exact (Option.some.inj hip).symm
    rw [hin, hpQ]
    show (if Q = n then 2 * r Q + 1 else 2 * r Q) <
      (if n = n then 2 * r Q + 1 else 2 * r n)
    rw [if_neg hQn, if_pos rfl]
    omega
  · rw [lookupA_insertA_ne _ _ _ _ hin] at hip
    have hpn : p ≠ n := by
      intro hh
      rw [hh] at hip
      exact hnoval i hip
    have hlt := hr i p hip
    show (if p = n then 2 * r Q + 1 else 2 * r p) <
      (if i = n then 2 * r Q + 1 else 2 * r i)
    rw [if_neg hpn, if_neg hin]
    omega

theorem structuralInv_surgery (o : Oracle) (g g' : Graph) (n P : Nat) (ds : List Nat)
    (hinv : structuralInv o g)
    (hfresh : lookupA g.parent n = none)
    (hnoval : ∀ j, lookupA g.parent j ≠ some n)
    (hPn : P ≠ n)
    (hds_par : ∀ d ∈ ds, lookupA g.parent d = some P)
    (hds_nodup : ds.Nodup)
    (hp : g'.parent =
      insertA (insertA (ds.foldl (fun pm d => insertA pm d n) g.parent) n P) n P)
    (hs : ∀ q k, g'.seqAt q k =
      if q = n then g.seqAt n k ++ ds.filter (fun d => skey o d = k)
      else if q = P then
        removeEach (ds.filter (fun d => skey o d = k)) (g.seqAt P k) ++
          (if k = skey o n then [n] else [])
      else g.seqAt q k) :
    structuralInv o g' := by
  obtain ⟨h1, h2⟩ := hinv
  have hnomem : ∀ q k, n ∉ g.seqAt q k := by
    intro q k hm
    have := (h2 n q k hm).1
    rw [hfresh] at this
    cases this
  have hnds : n ∉ ds := by
    intro hh
    have := hds_par n hh
    rw [hfresh] at this
    cases this
  constructor
  · intro i p hip
    rw [hp] at hip
    by_cases hin : i = n
    · have hpP : p = P := by
        rw [hin, lookupA_insertA_self] at hip
        exact (Option.some.inj hip).symm
      rw [hin, hpP, hs P (skey o n), if_neg hPn, if_pos rfl, if_pos rfl,
        List.count_append,
        List.count_eq_zero.mpr
          (not_mem_removeEach _ _ _ (hnomem P (skey o n)))]
      simp
    · rw [lookupA_insertA_ne _ _ _ _ hin, lookupA_insertA_ne _ _ _ _ hin,
        lookupA_foldl_insertA] at hip
      by_cases hid : i ∈ ds
      · rw [if_pos hid] at hip
        have hpn2 : p = n := (Option.some.inj hip).symm
        rw [hpn2, hs n (skey o i), if_pos rfl, List.count_append]
        have hg0 : (g.seqAt n (skey o i)).count i = 0 := by
          apply List.count_eq_zero.mpr
          intro hm
          exact hnoval i (h2 i n (skey o i) hm).1
        rw [hg0, List.count_filter (by simp), List.count_eq_one_of_mem hds_nodup hid]
      · rw [if_neg hid] at hip
        have hc := h1 i p hip
        have hpn : p ≠ n := by
          intro hh
          subst hh
          exact hnoval i hip
        rw [hs p (skey o i), if_neg hpn]
        by_cases hpP : p = P
        · subst hpP
          rw [if_pos rfl, List.count_append]
          have hnotfil : i ∉ ds.filter (fun d => skey o d = skey o i) := fun hf =>
            hid (List.mem_filter.mp hf).1
          rw [count_removeEach_not_mem _ _ _ hnotfil, hc]
          by_cases hk : skey o i = skey o n
          · rw [if_pos hk, List.count_eq_zero.mpr
              (fun hm => hin (List.mem_singleton.mp hm))]
          · rw [if_neg hk]
            simp
        · rw [if_neg hpP]
          exact hc
  · intro i p k hm
    rw [hs p k] at hm
    by_cases hpn : p = n
    · rw [hpn] at hm ⊢
      rw [if_pos rfl] at hm
      rcases List.mem_append.mp hm with hmm | hmm
      · exact absurd (h2 i n k hmm).1 (hnoval i)
      · obtain ⟨hid, hkd⟩ := List.mem_filter.mp hmm
        have hk' : k = skey o i := (of_decide_eq_true hkd).symm
        have hin : i ≠ n := fun hh => hnds (hh ▸ hid)
        rw [hp, lookupA_insertA_ne _ _ _ _ hin, lookupA_insertA_ne _ _ _ _ hin,
          lookupA_foldl_insertA, if_pos hid]
        exact ⟨rfl, hk'⟩
    · rw [if_neg hpn] at hm
      by_cases hpP : p = P
      · rw [hpP] at hm ⊢
        rw [if_pos rfl] at hm
        rcases List.mem_append.mp hm with hmm | hmm
        · have hmg : i ∈ g.seqAt P k := mem_removeEach_subset _ _ _ hmm
          obtain ⟨hpar, hk⟩ := h2 i P k hmg
          have hid : i ∉ ds := by
            intro hid
            have hfil : i ∈ ds.filter (fun d => skey o d = k) :=
              List.mem_filter.mpr ⟨hid, by rw [hk]; simp⟩
            have hc1 : (g.seqAt P k).count i ≤ 1 := by
              have := h1 i P hpar
              rw [← hk] at this
              omega
            have h0 := count_removeEach_mem _ _ _ hfil hc1
            exact absurd hmm (by
              intro hmem
              have := List.count_eq_zero.mp h0
              exact this hmem)
          have hin : i ≠ n := by
            intro hh
            subst hh
            rw [hfresh] at hpar
            cases hpar
          rw [hp, lookupA_insertA_ne _ _ _ _ hin, lookupA_insertA_ne _ _ _ _ hin,
            lookupA_foldl_insertA, if_neg hid]
          exact ⟨hpar, hk⟩
        · by_cases hk : k = skey o n
          · rw [if_pos hk] at hmm
            have hin : i = n := List.mem_singleton.mp hmm
            subst hin
            rw [hp, lookupA_insertA_self]
            exact ⟨rfl, hk⟩
          · rw [if_neg hk] at hmm
            cases hmm
      · rw [if_neg hpP] at hm
        obtain ⟨hpar, hk⟩ := h2 i p k hm
        have hin : i ≠ n := by
          intro hh
          subst hh
          rw [hfresh] at hpar
          cases hpar
        have hid : i ∉ ds := by
          intro hid
          have hPp := (hds_par i hid).symm.trans hpar
          exact hpP (Option.some.inj hPp).symm
        rw [hp, lookupA_insertA_ne _ _ _ _ hin, lookupA_insertA_ne _ _ _ _ hin,
          lookupA_foldl_insertA, if_neg hid]
        exact ⟨hpar, hk⟩

theorem rankOk_surgery (g g' : Graph) (n P : Nat) (ds : List Nat) (r : Nat → Nat)
    (hr : rankOk g r) (hPn : P ≠ n)
    (hnoval : ∀ j, lookupA g.parent j ≠ some n)
    (hds_par : ∀ d ∈ ds, lookupA g.parent d = some P)
    (hp : g'.parent =
      insertA (insertA (ds.foldl (fun pm d => insertA pm d n) g.parent) n P) n P) :
    rankOk g' (fun i => if i = n then 2 * r P + 1 else 2 * r i) := by
  intro i p hip
  rw [hp] at hip
  by_cases hin : i = n
  · have hpP : p = P := by
      rw [hin, lookupA_insertA_self] at hip
      exact (Option.some.inj hip).symm
    rw [hin, hpP]
    show (if P = n then 2 * r P + 1 else 2 * r P) <
      (if n = n then 2 * r P + 1 else 2 * r n)
    rw [if_neg hPn, if_pos rfl]
    omega
  · rw [lookupA_insertA_ne _ _ _ _ hin, lookupA_insertA_ne _ _ _ _ hin,
      lookupA_foldl_insertA] at hip
    by_cases hid : i ∈ ds
    · rw [if_pos hid] at hip
      have hpn2 : p = n := (Option.some.inj hip).symm
      rw [hpn2]
      have hlt := hr i P (hds_par i hid)
      show (if n = n then 2 * r P + 1 else 2 * r n) <
        (if i = n then 2 * r P + 1 else 2 * r i)
      rw [if_pos rfl, if_neg hin]
      omega
    · rw [if_neg hid] at hip
      have hpn : p ≠ n := by
        intro hh
        rw [hh] at hip
        exact hnoval i hip
      have hlt := hr i p hip
      show (if p = n then 2 * r P + 1 else 2 * r p) <
        (if i = n then 2 * r P + 1 else 2 * r i)
      rw [if_neg hpn, if_neg hin]
      omega

/-! ### Master preservation lemma for the descent loop -/

theorem insertLoop_master (o : Oracle) (n : Nat) (simpl : Option Nat) :
    ∀ (fuel : Nat) (P : Nat) (g : Graph),
      structuralInv o g → wellKeyed g → (∃ r, rankOk g r) →
      lookupA g.parent n = none →
      (∀ j, lookupA g.parent j ≠ some n) →
      P ≠ n →
      (∀ e g', Graph.insertLoop o n simpl fuel P g = .err e g' →
        g'.parent = g.parent ∧ (∀ q k, g'.seqAt q k = g.seqAt q k) ∧ wellKeyed g') ∧
      (∀ g', Graph.insertLoop o n simpl fuel P g = .fuelOut g' →
        g'.parent = g.parent ∧ (∀ q k, g'.seqAt q k = g.seqAt q k) ∧ wellKeyed g') ∧
      (∀ l g', Graph.insertLoop o n simpl fuel P g = .ok l g' →
        structuralInv o g' ∧ wellKeyed g' ∧ (∃ r, rankOk g' r) ∧
        (∀ j, j ≠ n → lookupA g.parent j = none → lookupA g'.parent j = none) ∧
        (∀ j v, lookupA g'.parent j = some v →
          lookupA g.parent j = some v ∨ v = n ∨ v = P ∨
            ∃ w, lookupA g.parent v = some w)) := by
  intro fuel
  induction fuel with
  | zero =>
    intro P g hinv hwk hrank hfresh hnoval hPn
    refine ⟨?_, ?_, ?_⟩
    · intro e g' h
      cases h
    · intro g' h
      cases h
      exact ⟨rfl, fun _ _ => rfl, hwk⟩
    · intro l g' h
      cases h
  | succ f ih =>
    intro P g hinv hwk hrank hfresh hnoval hPn
    have hkeyc := wellKeyed_childrenAt g hwk P
    have hwk1 : wellKeyed
        ⟨g.parent, insertA g.children P
          (Children.insert o (g.childrenAt P) n simpl).2⟩ :=
      wellKeyed_setChildren _ _ _ _ hwk
        (keys_nodup_children_insert o (g.childrenAt P) n simpl hkeyc)
    refine ⟨?_, ?_, ?_⟩
    · -- error case
      intro e g' h
      rw [insertLoop_step] at h
      split at h
      · rename_i heq
        cases h
        refine ⟨rfl, fun q k => ?_, hwk1⟩
        rw [graph_seqAt_setChildren]
        by_cases hq : q = P
        · rw [if_pos hq, children_insert_err1 o _ n simpl _ heq k, hq]
          rfl
        · rw [if_neg hq]
      · cases h
      · rename_i next heq
        have hrec := children_insert_recurse1 o _ n simpl next heq
        have hseq1 : ∀ q k,
            Graph.seqAt ⟨g.parent, insertA g.children P
              (Children.insert o (g.childrenAt P) n simpl).2⟩ q k = g.seqAt q k := by
          intro q k
          rw [graph_seqAt_setChildren]
          by_cases hq : q = P
          · rw [if_pos hq, hrec.2 k, hq]
            rfl
          · rw [if_neg hq]
        obtain ⟨knext, hknext⟩ := mem_candidates_seqAt _ simpl next hkeyc hrec.1
        have hnext_par : lookupA g.parent next = some P := (hinv.2 next P knext hknext).1
        have hnextn : next ≠ n := by
          intro hh
          rw [hh, hfresh] at hnext_par
          cases hnext_par
        have hg1inv : structuralInv o
            (⟨g.parent, insertA g.children P
              (Children.insert o (g.childrenAt P) n simpl).2⟩ : Graph) :=
          structuralInv_congr o g _ rfl hseq1 hinv
        have hIH := ih next _ hg1inv hwk1 hrank hfresh hnoval hnextn
        obtain ⟨hp2, hs2, hwk2⟩ := hIH.1 e g' h
        exact ⟨hp2, fun q k => (hs2 q k).trans (hseq1 q k), hwk2⟩
      · cases h
    · -- fuelOut case
      intro g' h
      rw [insertLoop_step] at h
      split at h
      · cases h
      · cases h
      · rename_i next heq
        have hrec := children_insert_recurse1 o _ n simpl next heq
        have hseq1 : ∀ q k,
            Graph.seqAt ⟨g.parent, insertA g.children P
              (Children.insert o (g.childrenAt P) n simpl).2⟩ q k = g.seqAt q k := by
          intro q k
          rw [graph_seqAt_setChildren]
          by_cases hq : q = P
          · rw [if_pos hq, hrec.2 k, hq]
            rfl
          · rw [if_neg hq]
        obtain ⟨knext, hknext⟩ := mem_candidates_seqAt _ simpl next hkeyc hrec.1
        have hnext_par : lookupA g.parent next = some P := (hinv.2 next P knext hknext).1
        have hnextn : next ≠ n := by
          intro hh
          rw [hh, hfresh] at hnext_par
          cases hnext_par
        have hg1inv : structuralInv o
            (⟨g.parent, insertA g.children P
              (Children.insert o (g.childrenAt P) n simpl).2⟩ : Graph) :=
          structuralInv_congr o g _ rfl hseq1 hinv
        have hIH := ih next _ hg1inv hwk1 hrank hfresh hnoval hnextn
        obtain ⟨hp2, hs2, hwk2⟩ := hIH.2.1 g' h
        exact ⟨hp2, fun q k => (hs2 q k).trans (hseq1 q k), hwk2⟩
      · cases h
    · -- ok case
      intro l g' h
      rw [insertLoop_step] at h
      split at h
      · cases h
      · -- BecameNewSibling
        rename_i l0 heq
        cases h
        have hseq : ∀ q k,
            Graph.seqAt ⟨insertA g.parent n P, insertA g.children P
              (Children.insert o (g.childrenAt P) n simpl).2⟩ q k =
              if q = P then g.seqAt P k ++ (if k = skey o n then [n] else [])
              else g.seqAt q k := by
          intro q k
          rw [graph_seqAt_setChildren]
          by_cases hq : q = P
          · rw [if_pos hq, if_pos hq, children_insert_sibling1 o _ n simpl _ heq k]
            rfl
          · rw [if_neg hq, if_neg hq]
            rfl
        obtain ⟨r, hr⟩ := hrank
        refine ⟨structuralInv_attach o g _ n P hinv hfresh rfl hseq,
          wellKeyed_setChildren _ _ _ _ hwk
            (keys_nodup_children_insert o (g.childrenAt P) n simpl hkeyc),
          ⟨_, rankOk_attach g _ n P r hr hPn hnoval rfl⟩, ?_, ?_⟩
        · intro j hj hnone
          show lookupA (insertA g.parent n P) j = none
          rw [lookupA_insertA_ne _ _ _ _ hj]
          exact hnone
        · intro j v hjv
          by_cases hj : j = n
          · rw [hj] at hjv
            rw [lookupA_insertA_self] at hjv
            exact .inr (.inr (.inl (Option.some.inj hjv).symm))
          · rw [show (⟨insertA g.parent n P, insertA g.children P
                (Children.insert o (g.childrenAt P) n simpl).2⟩ : Graph).parent =
                insertA g.parent n P from rfl,
              lookupA_insertA_ne _ _ _ _ hj] at hjv
            exact .inl hjv
      · -- ShouldRecurseOn
        rename_i next heq
        have hrec := children_insert_recurse1 o _ n simpl next heq
        have hseq1 : ∀ q k,
            Graph.seqAt ⟨g.parent, insertA g.children P
              (Children.insert o (g.childrenAt P) n simpl).2⟩ q k = g.seqAt q k := by
          intro q k
          rw [graph_seqAt_setChildren]
          by_cases hq : q = P
          · rw [if_pos hq, hrec.2 k, hq]
            rfl
          · rw [if_neg hq]
        obtain ⟨knext, hknext⟩ := mem_candidates_seqAt _ simpl next hkeyc hrec.1
        have hnext_par : lookupA g.parent next = some P := (hinv.2 next P knext hknext).1
        have hnextn : next ≠ n := by
          intro hh
          rw [hh, hfresh] at hnext_par
          cases hnext_par
        have hg1inv : structuralInv o
            (⟨g.parent, insertA g.children P
              (Children.insert o (g.childrenAt P) n simpl).2⟩ : Graph) :=
          structuralInv_congr o g _ rfl hseq1 hinv
        have hIH := ih next _ hg1inv hwk1 hrank hfresh hnoval hnextn
        obtain ⟨hi2, hw2, hr2, hf2, hv2⟩ := hIH.2.2 l g' h
        refine ⟨hi2, hw2, hr2, fun j hj hnone => hf2 j hj hnone, ?_⟩
        intro j v hjv
        rcases hv2 j v hjv with h1 | h1 | h1 | h1
        · exact .inl h1
        · exact .inr (.inl h1)
        · exact .inr (.inr (.inr ⟨P, h1 ▸ hnext_par⟩))
        · exact .inr (.inr (.inr h1))
      · -- ReplaceChildren
        rename_i ds heq
        cases h
        obtain ⟨hds_eq, hds_ne, hseqc⟩ := children_insert_replace1 o _ n simpl ds heq
        have hds_par : ∀ d ∈ ds, lookupA g.parent d = some P := by
          intro d hd
          rw [hds_eq] at hd
          have hdc := (List.mem_filter.mp hd).1
          obtain ⟨kd, hkd⟩ := mem_candidates_seqAt _ simpl d hkeyc hdc
          exact (hinv.2 d P kd hkd).1
        have hds_nodup : ds.Nodup :=
          hds_eq ▸ (candidates_nodup o g P hinv hwk simpl).filter _
        have hseq1 : ∀ q k,
            Graph.seqAt ⟨g.parent, insertA g.children P
              (Children.insert o (g.childrenAt P) n simpl).2⟩ q k = g.seqAt q k := by
          intro q k
          rw [graph_seqAt_setChildren]
          by_cases hq : q = P
          · rw [if_pos hq, hseqc k, hq]
            rfl
          · rw [if_neg hq]
        have hsurg_seq : ∀ q k,
            (Graph.surgery o n P ds
              ⟨g.parent, insertA g.children P
                (Children.insert o (g.childrenAt P) n simpl).2⟩).seqAt q k =
              if q = n then g.seqAt n k ++ ds.filter (fun d => skey o d = k)
              else if q = P then
                removeEach (ds.filter (fun d => skey o d = k)) (g.seqAt P k) ++
                  (if k = skey o n then [n] else [])
              else g.seqAt q k := by
          intro q k
          rw [surgery_seqAt o n P ds _ hPn, hseq1, hseq1, hseq1]
        have hsurg_par :
            (Graph.surgery o n P ds
              ⟨g.parent, insertA g.children P
                (Children.insert o (g.childrenAt P) n simpl).2⟩).parent =
              insertA (insertA (ds.foldl (fun pm d => insertA pm d n) g.parent) n P)
                n P := rfl
        obtain ⟨r, hr⟩ := hrank
        have hwkP : wellKeyed
            ⟨g.parent, insertA
              (insertA g.children P (Children.insert o (g.childrenAt P) n simpl).2) P
              ((ds.foldl (fun cc d => cc.remove_existing o d)
                ((lookupA (insertA g.children P
                  (Children.insert o (g.childrenAt P) n simpl).2) P).getD
                  Children.empty)).insert_blindly o n)⟩ := by
          apply wellKeyed_setChildren _ _ _ _ hwk1
          apply keys_nodup_insert_blindly
          apply keys_nodup_foldl_remove
          exact wellKeyed_childrenAt _ hwk1 P
        refine ⟨structuralInv_surgery o g _ n P ds hinv hfresh hnoval hPn hds_par
            hds_nodup hsurg_par hsurg_seq, ?_, ?_, ?_, ?_⟩
        · rw [surgery_eq]
          apply wellKeyed_setChildren _ _ _ _ hwkP
          apply keys_nodup_foldl_insert_blindly
          exact wellKeyed_childrenAt _ hwkP n
        · exact ⟨_, rankOk_surgery g _ n P ds r hr hPn hnoval hds_par hsurg_par⟩
        · intro j hj hnone
          rw [hsurg_par, lookupA_insertA_ne _ _ _ _ hj, lookupA_insertA_ne _ _ _ _ hj,
            lookupA_foldl_insertA]
          have hjd : j ∉ ds := by
            intro hjd
            rw [hds_par j hjd] at hnone
            cases hnone
          rw [if_neg hjd]
          exact hnone
        · intro j v hjv
          rw [hsurg_par] at hjv
          by_cases hj : j = n
          · rw [hj, lookupA_insertA_self] at hjv
            exact .inr (.inr (.inl (Option.some.inj hjv).symm))
          · rw [lookupA_insertA_ne _ _ _ _ hj, lookupA_insertA_ne _ _ _ _ hj,
              lookupA_foldl_insertA] at hjv
            by_cases hjd : j ∈ ds
            · rw [if_pos hjd] at hjv
              exact .inr (.inl (Option.some.inj hjv).symm)
            · rw [if_neg hjd] at hjv
              exact .inl hjv

/-! ### One full Graph.insert step preserves the invariants -/

theorem graph_insert_step_inv (o : Oracle) (g : Graph) (n fuel : Nat)
    (hinv : structuralInv o g) (hwk : wellKeyed g) (hrank : ∃ r, rankOk g r)
    (hfresh : lookupA g.parent n = none)
    (hnoval : ∀ j, lookupA g.parent j ≠ some n)
    (hTn : (o.impl_trait_ref n).def_id ≠ n) :
    structuralInv o (stepGraph o fuel g n) ∧ wellKeyed (stepGraph o fuel g n) ∧
      (∃ r, rankOk (stepGraph o fuel g n) r) ∧
      (∀ j, j ≠ n → lookupA g.parent j = none →
        lookupA (stepGraph o fuel g n).parent j = none) ∧
      (∀ j v, lookupA (stepGraph o fuel g n).parent j = some v →
        lookupA g.parent j = some v ∨ v = n ∨ v = (o.impl_trait_ref n).def_id ∨
          ∃ w, lookupA g.parent v = some w) := by
  unfold stepGraph
  cases hre : (o.impl_trait_ref n).references_error with
  | true =>
    rw [graph_insert_unfold_err_ref o g n fuel hre]
    have hseq : ∀ q k,
        Graph.seqAt ⟨insertA g.parent n (o.impl_trait_ref n).def_id,
          updateA g.children (o.impl_trait_ref n).def_id Children.empty
            (·.insert_blindly o n)⟩ q k =
          if q = (o.impl_trait_ref n).def_id then
            g.seqAt (o.impl_trait_ref n).def_id k ++ (if k = skey o n then [n] else [])
          else g.seqAt q k := by
      intro q k
      rw [graph_seqAt_updateChildren]
      by_cases hq : q = (o.impl_trait_ref n).def_id
      · rw [if_pos hq, if_pos hq, seqAt_insert_blindly]
        rfl
      · rw [if_neg hq, if_neg hq]
        rfl
    have hwk' : wellKeyed
        ⟨insertA g.parent n (o.impl_trait_ref n).def_id,
          updateA g.children (o.impl_trait_ref n).def_id Children.empty
            (·.insert_blindly o n)⟩ := by
      intro q c0 hl
      by_cases hq : q = (o.impl_trait_ref n).def_id
      · rw [hq, lookupA_updateA_self] at hl
        cases hl
        exact keys_nodup_insert_blindly o _ n (wellKeyed_childrenAt g hwk _)
      · rw [lookupA_updateA_ne _ _ _ _ _ hq] at hl
        exact hwk q c0 hl
    obtain ⟨r, hr⟩ := hrank
    refine ⟨structuralInv_attach o g _ n (o.impl_trait_ref n).def_id hinv hfresh rfl hseq,
      hwk', ⟨_, rankOk_attach g _ n (o.impl_trait_ref n).def_id r hr hTn hnoval rfl⟩,
      ?_, ?_⟩
    · intro j hj hnone
      show lookupA (insertA g.parent n (o.impl_trait_ref n).def_id) j = none
      rw [lookupA_insertA_ne _ _ _ _ hj]
      exact hnone
    · intro j v hjv
      have hjv2 : lookupA (insertA g.parent n (o.impl_trait_ref n).def_id) j =
          some v := hjv
      by_cases hj : j = n
      · rw [hj, lookupA_insertA_self] at hjv2
        exact .inr (.inr (.inl (Option.some.inj hjv2).symm))
      · rw [lookupA_insertA_ne _ _ _ _ hj] at hjv2
        exact .inl hjv2
  | false =>
    rw [graph_insert_unfold o g n fuel hre]
    have hm := insertLoop_master o n (skey o n) fuel (o.impl_trait_ref n).def_id g
      hinv hwk hrank hfresh hnoval hTn
    cases hres : Graph.insertLoop o n (skey o n) fuel (o.impl_trait_ref n).def_id g with
    | fuelOut g' =>
      obtain ⟨hp, hs, hwk'⟩ := hm.2.1 g' hres
      obtain ⟨r, hr⟩ := hrank
      refine ⟨structuralInv_congr o g g' hp hs hinv, hwk',
        ⟨r, fun i p hip => hr i p (by
          have hip2 : lookupA g'.parent i = some p := hip
          rw [hp] at hip2
          exact hip2)⟩, ?_, ?_⟩
      · intro j hj hnone
        show lookupA g'.parent j = none
        rw [hp]
        exact hnone
      · intro j v hjv
        have hjv2 : lookupA g'.parent j = some v := hjv
        rw [hp] at hjv2
        exact .inl hjv2
    | err e g' =>
      obtain ⟨hp, hs, hwk'⟩ := hm.1 e g' hres
      obtain ⟨r, hr⟩ := hrank
      refine ⟨structuralInv_congr o g g' hp hs hinv, hwk',
        ⟨r, fun i p hip => hr i p (by
          have hip2 : lookupA g'.parent i = some p := hip
          rw [hp] at hip2
          exact hip2)⟩, ?_, ?_⟩
      · intro j hj hnone
        show lookupA g'.parent j = none
        rw [hp]
        exact hnone
      · intro j v hjv
        have hjv2 : lookupA g'.parent j = some v := hjv
        rw [hp] at hjv2
        exact .inl hjv2
    | ok l g' =>
      obtain ⟨hi2, hw2, hr2, hf2, hv2⟩ := hm.2.2 l g' hres
      exact ⟨hi2, hw2, hr2, hf2, hv2⟩

/-! ### Sequences of insertions -/

theorem insertSeq_inv (o : Oracle) (fuel : Nat) :
    ∀ (ns : List Nat) (g : Graph),
      structuralInv o g → wellKeyed g → (∃ r, rankOk g r) →
      freshGroup o g ns →
      structuralInv o (insertSeq o fuel g ns) ∧ wellKeyed (insertSeq o fuel g ns) ∧
        ∃ r, rankOk (insertSeq o fuel g ns) r := by
  intro ns
  induction ns with
  | nil => exact fun g h1 h2 h3 _ => ⟨h1, h2, h3⟩
  | cons n rest ih =>
    intro g hinv hwk hrank hfg
    obtain ⟨hnd, hfr, hnv, htr⟩ := hfg
    obtain ⟨hnd1, hnd2⟩ := List.nodup_cons.mp hnd
    have hstep := graph_insert_step_inv o g n fuel hinv hwk hrank
      (hfr n (List.mem_cons_self _ _)) (hnv n (List.mem_cons_self _ _))
      (htr n (List.mem_cons_self _ _) n (List.mem_cons_self _ _))
    obtain ⟨hinv', hwk', hrank', hfresh', hval'⟩ := hstep
    have hstepeq : insertSeq o fuel g (n :: rest) =
        insertSeq o fuel (stepGraph o fuel g n) rest := rfl
    rw [hstepeq]
    apply ih _ hinv' hwk' hrank'
    refine ⟨hnd2, ?_, ?_, ?_⟩
    · intro m hm
      have hmn : m ≠ n := fun hh => hnd1 (hh ▸ hm)
      exact hfresh' m hmn (hfr m (List.mem_cons_of_mem _ hm))
    · intro m hm j hj
      have hmn : m ≠ n := fun hh => hnd1 (hh ▸ hm)
      rcases hval' j m hj with h1 | h1 | h1 | h1
      · exact hnv m (List.mem_cons_of_mem _ hm) j h1
      · exact hmn h1
      · exact htr m (List.mem_cons_of_mem _ hm) n (List.mem_cons_self _ _) h1.symm
      · obtain ⟨w, hw⟩ := h1
        rw [hfr m (List.mem_cons_of_mem _ hm)] at hw
        cases hw
    · intro m hm m2 hm2
      exact htr m (List.mem_cons_of_mem _ hm) m2 (List.mem_cons_of_mem _ hm2)

theorem rootedIn_of_rank (g : Graph) (r : Nat → Nat) (hr : rankOk g r) :
    ∀ (m i : Nat), r i ≤ m → rootedIn g m i = true := by
  intro m
  induction m with
  | zero =>
    intro i him
    cases hp : lookupA g.parent i with
    | none => simp [rootedIn, hp]
    | some p =>
      have := hr i p hp
      omega
  | succ m ih =>
    intro i him
    cases hp : lookupA g.parent i with
    | none => simp [rootedIn, hp]
    | some p =>
      have hlt := hr i p hp
      have hroot := ih p (by omega)
      simp [rootedIn, hp, hroot]

/-! ### Claim C4 -/

/-- Claim C4: after every successful `Graph::insert`, and after any sequence
of them (starting from a well-formed graph such as the empty one, inserting
fresh impl ids), the parent and children maps are inverse views of one
forest: every impl `I` with `parent[I] = P` appears in `children[P]` — in the
sequence selected by its own shape key, exactly once — and every occurrence
of an impl id in any Children sequence forest-wide is that designated one, so
each inserted impl id appears in exactly one Children set, exactly once, in
either the blanket sequence or one nonblanket bucket, never both.
(`insertSeq` also carries the graphs of failed insertions, which only create
empty containers, so interleaved failures do not disturb the invariant.) -/
theorem graph_insert_seq_invariant (o : Oracle) (g0 : Graph) (ns : List Nat)
    (fuel : Nat)
    (hinv : structuralInv o g0) (hwk : wellKeyed g0) (hrank : ∃ r, rankOk g0 r)
    (hfresh : freshGroup o g0 ns) :
    structuralInv o (insertSeq o fuel g0 ns) :=
  (insertSeq_inv o fuel ns g0 hinv hwk hrank hfresh).1

/-- Witness for C4: the Scenario-4 insertion sequence `[1, 2, 3]` into the
empty graph. -/
theorem graph_insert_seq_invariant_witness :
    structuralInv oScen4 (insertSeq oScen4 5 Graph.emptyG [1, 2, 3]) :=
  graph_insert_seq_invariant oScen4 Graph.emptyG [1, 2, 3] 5
    (by
      constructor
      · intro i p hp
        cases hp
      · intro i p k hm
        cases k <;> exact absurd hm (List.not_mem_nil i))
    (by
      intro p c hl
      cases hl)
    ⟨fun _ => 0, by
      intro i p hp
      cases hp⟩
    (by
      refine ⟨by decide, fun m _ => rfl, ?_, by decide⟩
      intro m hm j hj
      cases hj)

/-! ### Claim C5 -/

/-- Claim C5: for any sequence of `Graph::insert` calls on fresh impl ids
from a well-formed starting graph, following parent pointers from any id
reaches a parentless id — a trait root — in a finite number of steps: the
parent map never contains a cycle.  (The rank certificate of `rankOk`
decreases strictly along every parent edge, and `rootedIn` bounds the walk.) -/
theorem graph_insert_seq_acyclic (o : Oracle) (g0 : Graph) (ns : List Nat)
    (fuel : Nat)
    (hinv : structuralInv o g0) (hwk : wellKeyed g0) (hrank : ∃ r, rankOk g0 r)
    (hfresh : freshGroup o g0 ns) :
    ∀ i, ∃ steps, rootedIn (insertSeq o fuel g0 ns) steps i = true := by
  obtain ⟨r, hr⟩ := (insertSeq_inv o fuel ns g0 hinv hwk hrank hfresh).2.2
  exact fun i => ⟨r i, rootedIn_of_rank _ r hr (r i) i (le_refl _)⟩

/-- Witness for C5: the Scenario-2 insertion sequence `[1, 2]` into the
empty graph. -/
theorem graph_insert_seq_acyclic_witness :
    ∃ steps, rootedIn (insertSeq oScen2 5 Graph.emptyG [1, 2]) steps 2 = true :=
  graph_insert_seq_acyclic oScen2 Graph.emptyG [1, 2] 5
    (by
      constructor
      · intro i p hp
        cases hp
      · intro i p k hm
        cases k <;> exact absurd hm (List.not_mem_nil i))
    (by
      intro p c hl
      cases hl)
    ⟨fun _ => 0, by
      intro i p hp
      cases hp⟩
    (by
      refine ⟨by decide, fun m _ => rfl, ?_, by decide⟩
      intro m hm j hj
      cases hj) 2

end SpecGraph
